import Mathlib

/-! # Offset-based introspection of the VM code heap (`src/vmStructs.h`)

A shallow embedding of the structure views and of the PC-to-blob lookup of
`vmStructs.h`.

Conventions of the embedding (LP64, little endian):

* a pointer, `uintptr_t` or `size_t` is a `Nat` below `2 ^ 64`; pointer and
  `size_t` arithmetic wraps modulo `2 ^ 64`;
* an `int` is an `Int` (the 32-bit value, sign extended where it is added to a
  pointer);
* VM memory is a partial map from addresses to bytes: reading an unmapped
  address is a fault (the process receives SIGSEGV), reported as `Res.fault`;
* the `while` loop of `CodeHeap::findBlob` is run with fuel; running out of it
  is reported as `Res.timeout`;
* the signedness of plain `char` is implementation-defined; it is the
  parameter `sc` (`true`: `char` is signed, as on x86-64 Linux; `false`:
  `char` is unsigned, as on AArch64 Linux).
-/

namespace VMS

/-! ## Results of code that reads VM memory -/

/-- Outcome of running code that dereferences raw VM addresses. -/
inductive Res (α : Type) where
  | ok (a : α)
  | fault (addr : Nat)
  | timeout
  deriving DecidableEq

/-- Sequencing: the first fault or timeout ends the computation. -/
def Res.bind {α β : Type} (x : Res α) (f : α → Res β) : Res β :=
  match x with
  | .ok a => f a
  | .fault addr => .fault addr
  | .timeout => .timeout

instance : Monad Res where
  pure := Res.ok
  bind := Res.bind

/-! ## Machine words -/

/-- Number of values of a 64-bit word. -/
def WORD : Nat := 2 ^ 64

/-- Reinterpret the low `w` bits of `u` as a two's complement integer. -/
def toSigned (w : Nat) (u : Nat) : Int :=
  if u % 2 ^ w < 2 ^ (w - 1) then ((u % 2 ^ w : Nat) : Int)
  else ((u % 2 ^ w : Nat) : Int) - ((2 ^ w : Nat) : Int)

/-- Pointer plus a signed byte count, `p + n` on a `const char*`. -/
def ptrAdd (p : Nat) (n : Int) : Nat :=
  (((p : Int) + n) % ((WORD : Nat) : Int)).toNat

/-! ## VM memory -/

/-- The memory of the VM process: the byte mapped at each address, if any. -/
abbrev Mem := Nat → Option Nat

/-- Read one byte. -/
def readByte (m : Mem) (a : Nat) : Res Nat :=
  match m (a % WORD) with
  | some v => .ok (v % 256)
  | none => .fault (a % WORD)

/-- Read `n` bytes starting at `a` as a little-endian unsigned number. -/
def readLE (m : Mem) (a : Nat) : Nat → Res Nat
  | 0 => .ok 0
  | n + 1 => do
    let lo ← readByte m a
    let hi ← readLE m (a + 1) n
    pure (lo + 256 * hi)

/-- Read a pointer, `uintptr_t` or `size_t`: `*(uintptr_t*) a`. -/
def readPtr (m : Mem) (a : Nat) : Res Nat := readLE m a 8

/-- Read an `int`: `*(int*) a`. -/
def readInt (m : Mem) (a : Nat) : Res Int := do
  let u ← readLE m a 4
  pure (toSigned 32 u)

/-- Read an `unsigned short`: `*(unsigned short*) a`. -/
def readU16 (m : Mem) (a : Nat) : Res Nat := readLE m a 2

/-- Read a plain `char` and promote it to `int`; `sc` says whether `char` is
signed. -/
def readChar (sc : Bool) (m : Mem) (a : Nat) : Res Int := do
  let u ← readByte m a
  pure (if sc then toSigned 8 u else (u : Int))

/-- Read a `bool`: `*(bool*) a`, true when the byte is not zero. -/
def readBool (m : Mem) (a : Nat) : Res Bool := do
  let u ← readByte m a
  pure (decide (u ≠ 0))

end VMS

/-! ## The offset table -/

/-- The static members of `class VMStructs`: `FOR_ALL_VM_OFFSETS` (each an
`int`) and `FOR_ALL_VM_STATICS`. -/
structure VMStructs where
  _klass_name_offset : Int
  _symbol_length_offset : Int
  _symbol_body_offset : Int
  _anchor_sp_offset : Int
  _anchor_pc_offset : Int
  _anchor_fp_offset : Int
  _wrapper_anchor_offset : Int
  _stub_buffer_offset : Int
  _stub_buffer_limit_offset : Int
  _heap_memory_offset : Int
  _heap_segmap_offset : Int
  _heap_segment_size_offset : Int
  _vs_low_boundary_offset : Int
  _vs_high_boundary_offset : Int
  _vs_low_offset : Int
  _vs_high_offset : Int
  _heap_block_used_offset : Int
  _cb_name_offset : Int
  _cb_size_offset : Int
  _cb_frame_size_offset : Int
  _class_klass_offset : Int
  _call_stub_return_address : Nat
  _interpreter_code : Nat
  _code_cache_heap : Nat

open VMS

/-- The field address `(const char*)this + offset` of `VMStructs::at`. -/
def VMStructs.at_ (this : Nat) (offset : Int) : Nat := ptrAdd this offset

/-! ## VirtualSpace -/

/-- The member `VirtualSpace::low_boundary`. -/
def VirtualSpace.low_boundary (t : VMStructs) (m : Mem) (this : Nat) : Res Nat :=
  readPtr m (VMStructs.at_ this t._vs_low_boundary_offset)

/-- The member `VirtualSpace::high_boundary`. -/
def VirtualSpace.high_boundary (t : VMStructs) (m : Mem) (this : Nat) : Res Nat :=
  readPtr m (VMStructs.at_ this t._vs_high_boundary_offset)

/-- The member `VirtualSpace::low`. -/
def VirtualSpace.low (t : VMStructs) (m : Mem) (this : Nat) : Res Nat :=
  readPtr m (VMStructs.at_ this t._vs_low_offset)

/-- The member `VirtualSpace::high`. -/
def VirtualSpace.high (t : VMStructs) (m : Mem) (this : Nat) : Res Nat :=
  readPtr m (VMStructs.at_ this t._vs_high_offset)

/-- The member `VirtualSpace::contains`: `low_boundary() <= addr && addr < high()`; the
right operand is evaluated only when the left one holds. -/
def VirtualSpace.contains (t : VMStructs) (m : Mem) (this : Nat) (addr : Nat) : Res Bool := do
  let lb ← VirtualSpace.low_boundary t m this
  if lb ≤ addr then do
    let h ← VirtualSpace.high t m this
    pure (decide (addr < h))
  else pure false

/-! ## Symbol, Klass, Class, frame anchor, call wrapper, stub queue -/

/-- The member `VMSymbol::length`. -/
def VMSymbol.length (t : VMStructs) (m : Mem) (this : Nat) : Res Nat :=
  readU16 m (VMStructs.at_ this t._symbol_length_offset)

/-- The member `VMSymbol::body`: the address of the inline bytes. -/
def VMSymbol.body (t : VMStructs) (this : Nat) : Nat :=
  VMStructs.at_ this t._symbol_body_offset

/-- The member `VMKlass::name`. -/
def VMKlass.name (t : VMStructs) (m : Mem) (this : Nat) : Res Nat :=
  readPtr m (VMStructs.at_ this t._klass_name_offset)

/-- The member `java_lang_Class::klass`. -/
def java_lang_Class.klass (t : VMStructs) (m : Mem) (this : Nat) : Res Nat :=
  readPtr m (VMStructs.at_ this t._class_klass_offset)

/-- The member `JavaFrameAnchor::lastJavaSP`. -/
def JavaFrameAnchor.lastJavaSP (t : VMStructs) (m : Mem) (this : Nat) : Res Nat :=
  readPtr m (VMStructs.at_ this t._anchor_sp_offset)

/-- The member `JavaFrameAnchor::lastJavaPC`. -/
def JavaFrameAnchor.lastJavaPC (t : VMStructs) (m : Mem) (this : Nat) : Res Nat :=
  readPtr m (VMStructs.at_ this t._anchor_pc_offset)

/-- The member `JavaFrameAnchor::lastJavaFP`. -/
def JavaFrameAnchor.lastJavaFP (t : VMStructs) (m : Mem) (this : Nat) : Res Nat :=
  readPtr m (VMStructs.at_ this t._anchor_fp_offset)

/-- The member `JavaCallWrapper::anchor`: the address of the embedded anchor. -/
def JavaCallWrapper.anchor (t : VMStructs) (this : Nat) : Nat :=
  VMStructs.at_ this t._wrapper_anchor_offset

/-- The member `StubRoutines::callStubReturnAddress`. -/
def StubRoutines.callStubReturnAddress (t : VMStructs) : Nat :=
  t._call_stub_return_address

/-- The member `StubQueue::buffer`. -/
def StubQueue.buffer (t : VMStructs) (m : Mem) (this : Nat) : Res Nat :=
  readPtr m (VMStructs.at_ this t._stub_buffer_offset)

/-- The member `StubQueue::buffer_limit`. -/
def StubQueue.buffer_limit (t : VMStructs) (m : Mem) (this : Nat) : Res Int :=
  readInt m (VMStructs.at_ this t._stub_buffer_limit_offset)

/-- The member `Interpreter::contains`. The sum `code_start + buffer_limit()`
is a `uintptr_t`: the `int` is converted to 64 bits and the sum wraps. -/
def Interpreter.contains (t : VMStructs) (m : Mem) (pc : Nat) : Res Bool := do
  let code_start ← StubQueue.buffer t m t._interpreter_code
  let limit ← StubQueue.buffer_limit t m t._interpreter_code
  let code_end := ptrAdd code_start limit
  pure (decide (code_start ≤ pc ∧ pc < code_end))

/-! ## CodeBlob -/

/-- The value of `sizeof(CodeBlob)`: the class has no non-static data member
(its base `VMStructs` has static members only), so it is an empty class, of
size 1. It is the unit of the pointer arithmetic `(CodeBlob*)block + 2`. -/
def CodeBlob.sizeof : Nat := 1

/-- The member `CodeBlob::name`. -/
def CodeBlob.name (t : VMStructs) (m : Mem) (this : Nat) : Res Nat :=
  readPtr m (VMStructs.at_ this t._cb_name_offset)

/-- The member `CodeBlob::size`. -/
def CodeBlob.size (t : VMStructs) (m : Mem) (this : Nat) : Res Int :=
  readInt m (VMStructs.at_ this t._cb_size_offset)

/-- The member `CodeBlob::frameSize`. -/
def CodeBlob.frameSize (t : VMStructs) (m : Mem) (this : Nat) : Res Int :=
  readInt m (VMStructs.at_ this t._cb_frame_size_offset)

/-- The member `CodeBlob::contains`: `at(0) <= pc && pc < at(size())`. -/
def CodeBlob.contains (t : VMStructs) (m : Mem) (this : Nat) (pc : Nat) : Res Bool :=
  if VMStructs.at_ this 0 ≤ pc then do
    let sz ← CodeBlob.size t m this
    pure (decide (pc < VMStructs.at_ this sz))
  else pure false

/-! ## CodeHeap -/

/-- The member `CodeHeap::memory`: the address of the embedded `VirtualSpace`. -/
def CodeHeap.memory (t : VMStructs) (this : Nat) : Nat :=
  VMStructs.at_ this t._heap_memory_offset

/-- The member `CodeHeap::segmap`: the address of the embedded `VirtualSpace`. -/
def CodeHeap.segmap (t : VMStructs) (this : Nat) : Nat :=
  VMStructs.at_ this t._heap_segmap_offset

/-- The member `CodeHeap::log2SegmentSize`. -/
def CodeHeap.log2SegmentSize (t : VMStructs) (m : Mem) (this : Nat) : Res Int :=
  readInt m (VMStructs.at_ this t._heap_segment_size_offset)

/-- The shift count the hardware uses for a 64-bit shift by the `int` `k`:
its low six bits (a count outside `0..63` is undefined in C++). -/
def shiftCount (k : Int) : Nat := (k % 64).toNat

/-- The member `CodeHeap::addrToIndex`: `(pc - memory()->low()) >> log2SegmentSize()`,
the pointer difference being a signed 64-bit value, shifted arithmetically
and converted to `size_t`. -/
def CodeHeap.addrToIndex (t : VMStructs) (m : Mem) (this : Nat) (pc : Nat) : Res Nat := do
  let lo ← VirtualSpace.low t m (CodeHeap.memory t this)
  let k ← CodeHeap.log2SegmentSize t m this
  let d : Int := toSigned 64 (pc + WORD - lo % WORD)
  pure ((d / ((2 ^ shiftCount k : Nat) : Int)) % ((WORD : Nat) : Int)).toNat

/-- The member `CodeHeap::indexToAddr`: `memory()->low() + (index << log2SegmentSize())`. -/
def CodeHeap.indexToAddr (t : VMStructs) (m : Mem) (this : Nat) (index : Nat) : Res Nat := do
  let lo ← VirtualSpace.low t m (CodeHeap.memory t this)
  let k ← CodeHeap.log2SegmentSize t m this
  pure ((lo + (index * 2 ^ shiftCount k) % WORD) % WORD)

/-- The statement `i -= (int)b[i]` on the `size_t` `i`. -/
def sizeSub (i : Nat) (c : Int) : Nat :=
  (((i : Int) - c) % ((WORD : Nat) : Int)).toNat

/-- The loop `while (b[i] > 0) i -= (int)b[i];` of `CodeHeap::findBlob`,
returning the final `i`. -/
def CodeHeap.walk (sc : Bool) (m : Mem) (b : Nat) : Nat → Nat → Res Nat
  | 0, _ => .timeout
  | fuel + 1, i => do
    let c ← readChar sc m (b + i)
    if c > 0 then CodeHeap.walk sc m b fuel (sizeSub i c) else pure i

/-- The member `CodeHeap::findBlob`; the null pointer is `0`. -/
def CodeHeap.findBlob (sc : Bool) (t : VMStructs) (m : Mem) (fuel : Nat) (this : Nat)
    (pc : Nat) : Res Nat := do
  let inside ← VirtualSpace.contains t m (CodeHeap.memory t this) pc
  if !inside then pure 0 else
  let b ← VirtualSpace.low t m (CodeHeap.segmap t this)
  let i ← CodeHeap.addrToIndex t m this pc
  let c ← readChar sc m (b + i)
  if c = 0xff then pure 0 else
  let i ← CodeHeap.walk sc m b fuel i
  let block ← CodeHeap.indexToAddr t m this i
  let used ← readBool m (ptrAdd block t._heap_block_used_offset)
  if used then pure 0 else
  pure ((block + 2 * CodeBlob.sizeof) % WORD)

/-! ## CodeCache -/

/-- The member `CodeCache::findBlob`. -/
def CodeCache.findBlob (sc : Bool) (t : VMStructs) (m : Mem) (fuel : Nat) (pc : Nat) :
    Res Nat := do
  let cb ← CodeHeap.findBlob sc t m fuel t._code_cache_heap pc
  if cb ≠ 0 then do
    let c ← CodeBlob.contains t m cb pc
    if c then pure cb else pure 0
  else pure 0

/-! ## Observers of the lookup

The functions below repeat the control flow of `CodeHeap::findBlob` and record
what it does: which segment-map indices it reads and how many times the loop
body runs. -/

/-- The indices `i` at which the loop `while (b[i] > 0) i -= (int)b[i];` reads
`b[i]`, in the order of the reads; the last one is the final `i`. -/
def CodeHeap.walkTrace (sc : Bool) (m : Mem) (b : Nat) : Nat → Nat → Res (List Nat)
  | 0, _ => .timeout
  | fuel + 1, i => do
    let c ← readChar sc m (b + i)
    if c > 0 then do
      let l ← CodeHeap.walkTrace sc m b fuel (sizeSub i c)
      pure (i :: l)
    else pure [i]

/-- The number of times the body `i -= (int)b[i]` of the loop runs. -/
def CodeHeap.walkSteps (sc : Bool) (m : Mem) (b : Nat) (fuel i : Nat) : Res Nat := do
  let l ← CodeHeap.walkTrace sc m b fuel i
  pure (l.length - 1)

/-- The segment-map indices that `CodeHeap::findBlob` reads: none when the
range test fails, the index of `pc` for the test `b[i] == 0xff`, then those of
the loop. -/
def CodeHeap.findBlobIndices (sc : Bool) (t : VMStructs) (m : Mem) (fuel : Nat) (this : Nat)
    (pc : Nat) : Res (List Nat) := do
  let inside ← VirtualSpace.contains t m (CodeHeap.memory t this) pc
  if !inside then pure [] else
  let b ← VirtualSpace.low t m (CodeHeap.segmap t this)
  let i ← CodeHeap.addrToIndex t m this pc
  let c ← readChar sc m (b + i)
  if c = 0xff then pure [i] else
  let l ← CodeHeap.walkTrace sc m b fuel i
  pure (i :: l)

/-- The total segment count of the heap: the number of segments of
`2 ^ log2SegmentSize` bytes that the committed range `[low, high)` of the code
memory spans. -/
def CodeHeap.segmentCount (t : VMStructs) (m : Mem) (this : Nat) : Res Nat := do
  let lo ← VirtualSpace.low t m (CodeHeap.memory t this)
  let hi ← VirtualSpace.high t m (CodeHeap.memory t this)
  let k ← CodeHeap.log2SegmentSize t m this
  pure ((hi - lo + 2 ^ shiftCount k - 1) / 2 ^ shiftCount k)

/-- Modelled from the spec: the offset table "still in its initial state",
before `VMStructs::init` has populated it. The file defining the static
members is not among the sources; static storage is taken as zero-initialised. -/
def VMStructs.initial : VMStructs where
  _klass_name_offset := 0
  _symbol_length_offset := 0
  _symbol_body_offset := 0
  _anchor_sp_offset := 0
  _anchor_pc_offset := 0
  _anchor_fp_offset := 0
  _wrapper_anchor_offset := 0
  _stub_buffer_offset := 0
  _stub_buffer_limit_offset := 0
  _heap_memory_offset := 0
  _heap_segmap_offset := 0
  _heap_segment_size_offset := 0
  _vs_low_boundary_offset := 0
  _vs_high_boundary_offset := 0
  _vs_low_offset := 0
  _vs_high_offset := 0
  _heap_block_used_offset := 0
  _cb_name_offset := 0
  _cb_size_offset := 0
  _cb_frame_size_offset := 0
  _class_klass_offset := 0
  _call_stub_return_address := 0
  _interpreter_code := 0
  _code_cache_heap := 0

/-! ## Concrete memory images -/

namespace VMS

/-- The `n` low bytes of `v`, least significant first. -/
def bytesLE (v : Nat) : Nat → List Nat
  | 0 => []
  | n + 1 => v % 256 :: bytesLE (v / 256) n

/-- The memory image in which exactly the listed byte runs are mapped. -/
def memOf : List (Nat × List Nat) → Mem
  | [] => fun _ => none
  | (base, bs) :: rest => fun a =>
    if base ≤ a ∧ a < base + bs.length then bs[a - base]? else memOf rest a

/-- An offset table with the layout used by the examples: a `CodeHeap` at
`0x100` holding `_memory` at `+0`, `_segmap` at `+32` and `_log2_segment_size`
at `+64`; a `VirtualSpace` holding its four pointers at `+0`, `+8`, `+16` and
`+24`; the `_used` flag of a block header at `+8`; `CodeBlob::_size` at `+8`. -/
def exTable : VMStructs where
  _klass_name_offset := 8
  _symbol_length_offset := 0
  _symbol_body_offset := 2
  _anchor_sp_offset := 0
  _anchor_pc_offset := 8
  _anchor_fp_offset := 16
  _wrapper_anchor_offset := 8
  _stub_buffer_offset := 0
  _stub_buffer_limit_offset := 8
  _heap_memory_offset := 0
  _heap_segmap_offset := 32
  _heap_segment_size_offset := 64
  _vs_low_boundary_offset := 0
  _vs_high_boundary_offset := 8
  _vs_low_offset := 16
  _vs_high_offset := 24
  _heap_block_used_offset := 8
  _cb_name_offset := 0
  _cb_size_offset := 8
  _cb_frame_size_offset := 12
  _class_klass_offset := 72
  _call_stub_return_address := 0
  _interpreter_code := 0
  _code_cache_heap := 0x100

/-- The bytes of a `CodeHeap` object laid out as `exTable` says: code memory
with reserved low `lb`, committed range `[lo, hi)`, a segment map starting at
`sb` holding `n` bytes, and `log2` as the segment size shift. -/
def heapBytes (lb lo hi sb n log2 : Nat) : List Nat :=
  bytesLE lb 8 ++ bytesLE hi 8 ++ bytesLE lo 8 ++ bytesLE hi 8 ++
  bytesLE sb 8 ++ bytesLE (sb + n) 8 ++ bytesLE sb 8 ++ bytesLE (sb + n) 8 ++
  bytesLE log2 4

/-- The bytes of a heap block as the lookup sees it with `exTable`: the blob
starts at `+2`, the `_used` flag is the byte at `+8` and the blob's `_size` is
the `int` at `+10`. -/
def blockBytes (used : Nat) (size : Nat) : List Nat :=
  [0, 0, 0, 0, 0, 0, 0, 0, used, 0] ++ bytesLE size 4

/-- A heap of four 64-byte segments at `[0x1000, 0x1100)` with segment map
`[0, 1, 2, 3]` at `0x2000`: one block at `0x1000`, whose header has the `_used`
byte `used` and whose blob declares `size` bytes. -/
def memBlock (used size : Nat) : Mem :=
  memOf [(0x100, heapBytes 0x1000 0x1000 0x1100 0x2000 4 6),
         (0x2000, [0, 1, 2, 3]),
         (0x1000, blockBytes used size)]

/-- As `memBlock 0 200`, but the reserved range starts at `0x800`, below the
committed low `0x1000`, and the bytes at `0x800` and below the segment map are
mapped too. -/
def memLowGap : Mem :=
  memOf [(0x100, heapBytes 0x800 0x1000 0x1100 0x2000 4 6),
         (0x1FE0, [0]),
         (0x2000, [0, 1, 2, 3]),
         (0x800, blockBytes 0 200),
         (0x1000, blockBytes 0 200)]

/-- As `memBlock 0 200`, but segment 2 carries the free marker `0xFF`; the
bytes of that segment are mapped and read as a header with a clear `_used`
byte and a size of 40. -/
def memFree : Mem :=
  memOf [(0x100, heapBytes 0x1000 0x1000 0x1100 0x2000 4 6),
         (0x2000, [0, 1, 0xFF, 3]),
         (0x1000, blockBytes 0 200),
         (0x1080, blockBytes 0 40)]

/-- A heap of 130 segments of 64 bytes at `0x10000` whose segment map holds
one block: the byte at index `j` is `j`, for every `j < 130`. -/
def memLongRun : Mem :=
  memOf [(0x100, heapBytes 0x10000 0x10000 (0x10000 + 130 * 64) 0x2000 130 6),
         (0x2000, List.range 130),
         (0x10000, blockBytes 0 8000),
         (0x10000 + 129 * 64, blockBytes 0 8000)]

/-- As `memBlock 0 200`, but the segment map is `[3, 1, 2, 3]`: the distance at
index 0 leads below the map. `below` lists the bytes mapped just below the map,
read as block headers as well. -/
def memUnderrun (below : List Nat) : Mem :=
  memOf [(0x100, heapBytes 0x1000 0x1000 0x1100 0x2000 4 6),
         (0x2000 - below.length, below),
         (0x2000, [3, 1, 2, 3]),
         (0xF40, blockBytes 0 400),
         (0x1000, blockBytes 0 200)]

/-- A heap of a single 64-byte segment at `[0x1000, 0x1040)` whose segment
map, the byte at `0x2000`, is `[1]`; the two bytes below the map are `[0, 1]`,
and the bytes at `0xF80` read as a block header with a clear `_used` byte. -/
def memOverlong : Mem :=
  memOf [(0x100, heapBytes 0x1000 0x1000 0x1040 0x2000 1 6),
         (0x1FFE, [0, 1, 1]),
         (0xF80, blockBytes 0 400)]

/-- The memory holds at address `a` the `n` bytes of the little-endian
encoding of `v`. -/
def holdsLE (m : Mem) (a v n : Nat) : Prop :=
  ∀ i, i < n → m ((a + i) % WORD) = some (v / 256 ^ i % 256)

instance (m : Mem) (a v n : Nat) : Decidable (holdsLE m a v n) := by
  unfold holdsLE
  infer_instance

/-- The 32-bit two's complement encoding of an `int`. -/
def encodeInt (z : Int) : Nat := (z % 4294967296).toNat

/-- The memories `m1` and `m2` hold the same `n` bytes at address `a`. -/
def agreeAt (m1 m2 : Mem) (a n : Nat) : Prop :=
  ∀ i, i < n → m1 ((a + i) % WORD) = m2 ((a + i) % WORD)

/-- The accessor `f` returns the unsigned `n`-byte value stored at `addr`, and
nothing else: it returns `v` from every memory holding the encoding of `v`
there, and the same result from any two memories with the same `n` bytes
there. -/
def ReadsField (n : Nat) (f : Mem → Res Nat) (addr : Nat) : Prop :=
  (∀ (m : Mem) (v : Nat), v < 256 ^ n → holdsLE m addr v n → f m = .ok v) ∧
  (∀ m1 m2 : Mem, agreeAt m1 m2 addr n → f m1 = f m2)

/-- The accessor `f` returns the `int` stored at `addr`, and nothing else. -/
def ReadsIntField (f : Mem → Res Int) (addr : Nat) : Prop :=
  (∀ (m : Mem) (z : Int), -2147483648 ≤ z → z < 2147483648 →
    holdsLE m addr (encodeInt z) 4 → f m = .ok z) ∧
  (∀ m1 m2 : Mem, agreeAt m1 m2 addr 4 → f m1 = f m2)

/-- The example offset table with the interpreter's `StubQueue` at `0x300`. -/
def exTableStubs : VMStructs :=
  { exTable with _interpreter_code := 0x300 }

/-- A memory holding a `StubQueue` at `0x300` laid out as `exTable` says:
`_stub_buffer` is `start` and `_buffer_limit` is the `int` encoded by `limit`. -/
def memStubs (start limit : Nat) : Mem :=
  memOf [(0x300, bytesLE start 8 ++ bytesLE limit 4)]

/-- A memory holding, at `0x400`, a `Symbol` of length 5 with body `hello`
and, at `0x500`, a frame anchor with the words `0x7000`, `0x1090`, `0x7040`
followed by a pointer to the symbol. -/
def memViews : Mem :=
  memOf [(0x400, [5, 0, 104, 101, 108, 108, 111]),
         (0x500, bytesLE 0x7000 8 ++ bytesLE 0x1090 8 ++ bytesLE 0x7040 8 ++ bytesLE 0x400 8)]

end VMS

/-! ## Basic facts about the embedding -/

namespace VMS

@[simp]
theorem Res.ok_bind {α β : Type} (a : α) (f : α → Res β) :
    (Res.ok a >>= f) = f a := rfl

@[simp]
theorem Res.fault_bind {α β : Type} (addr : Nat) (f : α → Res β) :
    ((Res.fault addr : Res α) >>= f) = Res.fault addr := rfl

@[simp]
theorem Res.timeout_bind {α β : Type} (f : α → Res β) :
    ((Res.timeout : Res α) >>= f) = Res.timeout := rfl

@[simp]
theorem Res.pure_eq {α : Type} (a : α) : (pure a : Res α) = Res.ok a := rfl

end VMS

/-- Outside `[low_boundary, high)` the range test fails. -/
theorem VirtualSpace.contains_outside (t : VMStructs) (m : Mem) (vs addr lb : Nat)
    (hlb : VirtualSpace.low_boundary t m vs = .ok lb)
    (hout : addr < lb ∨ ∃ hi, VirtualSpace.high t m vs = .ok hi ∧ hi ≤ addr) :
    VirtualSpace.contains t m vs addr = .ok false := by
  unfold VirtualSpace.contains
  rw [hlb]
  rcases hout with h | ⟨hi, hhi, h⟩
  · simp [Nat.not_le.mpr h]
  · by_cases hle : lb ≤ addr
    · simp [hle, hhi, Nat.not_lt.mpr h]
    · simp [hle]

/-- A failed range test makes `CodeHeap::findBlob` return null. -/
theorem CodeHeap.findBlob_of_not_contains (sc : Bool) (t : VMStructs) (m : Mem)
    (fuel this pc : Nat)
    (h : VirtualSpace.contains t m (CodeHeap.memory t this) pc = .ok false) :
    CodeHeap.findBlob sc t m fuel this pc = .ok 0 := by
  unfold CodeHeap.findBlob
  rw [h]
  simp

/-- A null result of the heap lookup is passed on by `CodeCache::findBlob`. -/
theorem CodeCache.findBlob_of_null (sc : Bool) (t : VMStructs) (m : Mem) (fuel pc : Nat)
    (h : CodeHeap.findBlob sc t m fuel t._code_cache_heap pc = .ok 0) :
    CodeCache.findBlob sc t m fuel pc = .ok 0 := by
  unfold CodeCache.findBlob
  rw [h]
  simp

/-! ## C1: addresses outside the code heap -/

/-- C1 (counterexample): with the reserved low `0x800` below the committed low
`0x1000`, the address `0x810` lies outside `[memory.low, memory.high)` and both
`CodeHeap::findBlob` and `CodeCache::findBlob` return the non-null `0x802`. -/
theorem C1_counterexample :
    VirtualSpace.low exTable memLowGap (CodeHeap.memory exTable 0x100) = .ok 0x1000 ∧
    VirtualSpace.high exTable memLowGap (CodeHeap.memory exTable 0x100) = .ok 0x1100 ∧
    0x810 < 0x1000 ∧
    CodeHeap.findBlob true exTable memLowGap 1 0x100 0x810 = .ok 0x802 ∧
    CodeCache.findBlob true exTable memLowGap 1 0x810 = .ok 0x802 ∧
    CodeHeap.findBlob false exTable memLowGap 1 0x100 0x810 = .ok 0x802 ∧
    CodeCache.findBlob false exTable memLowGap 1 0x810 = .ok 0x802 := by
  decide

/-- C1 (amended): for every heap state and every pc outside
`[memory.low_boundary, memory.high)` (`pc < low_boundary`, or `high <= pc`, the
fields compared being readable), `CodeHeap::findBlob` returns null, and so does
`CodeCache::findBlob` for the code-cache heap, whatever the fuel and the
signedness of `char`. -/
theorem C1_findBlob_null_outside_memory (sc : Bool) (t : VMStructs) (m : Mem)
    (fuel this pc lb : Nat)
    (hlb : VirtualSpace.low_boundary t m (CodeHeap.memory t this) = .ok lb)
    (hout : pc < lb ∨
      ∃ hi, VirtualSpace.high t m (CodeHeap.memory t this) = .ok hi ∧ hi ≤ pc) :
    CodeHeap.findBlob sc t m fuel this pc = .ok 0 ∧
    (this = t._code_cache_heap → CodeCache.findBlob sc t m fuel pc = .ok 0) := by
  have h := CodeHeap.findBlob_of_not_contains sc t m fuel this pc
    (VirtualSpace.contains_outside t m _ pc lb hlb hout)
  refine ⟨h, fun hthis => ?_⟩
  subst hthis
  exact CodeCache.findBlob_of_null sc t m fuel pc h

/-- C1 (witness): the amended statement at `pc = 0x2000`, above the committed
high `0x1100` of the example heap. -/
theorem C1_findBlob_null_outside_memory_witness :
    VirtualSpace.low_boundary exTable (memBlock 0 200) (CodeHeap.memory exTable 0x100)
      = .ok 0x1000 ∧
    VirtualSpace.high exTable (memBlock 0 200) (CodeHeap.memory exTable 0x100)
      = .ok 0x1100 ∧
    CodeHeap.findBlob true exTable (memBlock 0 200) 10 0x100 0x2000 = .ok 0 ∧
    (0x100 = exTable._code_cache_heap →
      CodeCache.findBlob true exTable (memBlock 0 200) 10 0x2000 = .ok 0) :=
  ⟨by decide, by decide,
    C1_findBlob_null_outside_memory true exTable (memBlock 0 200) 10 0x100 0x2000 0x1000
      (by decide) (Or.inr ⟨0x1100, by decide, by decide⟩)⟩

/-! ## C2: the containment check of the top-level lookup -/

namespace VMS

theorem Res.bind_eq_ok {α β : Type} (x : Res α) (f : α → Res β) (b : β) :
    (x >>= f) = Res.ok b ↔ ∃ a, x = Res.ok a ∧ f a = Res.ok b := by
  cases x with
  | ok a => simp
  | fault addr => simp
  | timeout => simp

/-- A little-endian read of `n` bytes is below `256 ^ n`. -/
theorem readLE_lt (m : Mem) (n : Nat) : ∀ (a v : Nat), readLE m a n = .ok v → v < 256 ^ n := by
  induction n with
  | zero =>
    intro a v h
    simp [readLE] at h
    omega
  | succ n ih =>
    intro a v h
    simp only [readLE, Res.bind_eq_ok, Res.pure_eq, Res.ok.injEq] at h
    obtain ⟨lo, hlo, hi, hhi, hv⟩ := h
    have h1 := ih (a + 1) hi hhi
    have h2 : lo < 256 := by
      unfold readByte at hlo
      split at hlo
      · simp only [Res.ok.injEq] at hlo
        omega
      · simp at hlo
    rw [pow_succ]
    omega

/-- A pointer read from memory is a 64-bit value. -/
theorem readPtr_lt (m : Mem) (a v : Nat) (h : readPtr m a = .ok v) : v < WORD := by
  have := readLE_lt m 8 a v h
  simpa [WORD] using this

/-- An `int` read from memory is a 32-bit two's complement value. -/
theorem readInt_range (m : Mem) (a : Nat) (z : Int) (h : readInt m a = .ok z) :
    -2147483648 ≤ z ∧ z < 2147483648 := by
  simp only [readInt, Res.bind_eq_ok, Res.pure_eq, Res.ok.injEq] at h
  obtain ⟨u, _, hz⟩ := h
  subst hz
  unfold toSigned
  split <;> omega

/-- Adding zero to a 64-bit pointer leaves it unchanged. -/
theorem ptrAdd_zero (p : Nat) (h : p < WORD) : ptrAdd p 0 = p := by
  unfold ptrAdd
  unfold WORD at *
  omega

end VMS

/-- A pointer returned by `CodeHeap::findBlob` is a 64-bit value. -/
theorem CodeHeap.findBlob_lt (sc : Bool) (t : VMStructs) (m : Mem) (fuel this pc r : Nat)
    (h : CodeHeap.findBlob sc t m fuel this pc = .ok r) : r < WORD := by
  unfold CodeHeap.findBlob at h
  simp only [Res.bind_eq_ok] at h
  obtain ⟨inside, _, h⟩ := h
  have hpos : 0 < WORD := by unfold WORD; omega
  split at h
  · simp only [Res.pure_eq, Res.ok.injEq] at h
    omega
  · simp only [Res.bind_eq_ok] at h
    obtain ⟨b, _, i, _, c, _, h⟩ := h
    split at h
    · simp only [Res.pure_eq, Res.ok.injEq] at h
      omega
    · simp only [Res.bind_eq_ok] at h
      obtain ⟨k, _, block, _, used, _, h⟩ := h
      split at h
      · simp only [Res.pure_eq, Res.ok.injEq] at h
        omega
      · simp only [Res.pure_eq, Res.ok.injEq] at h
        rw [← h]
        exact Nat.mod_lt _ hpos

/-- Whatever `CodeCache::findBlob` returns that is not null is the pointer the
heap lookup returned, and `CodeBlob::contains` holds of it. -/
theorem CodeCache.findBlob_ok_nonnull (sc : Bool) (t : VMStructs) (m : Mem) (fuel pc cb : Nat)
    (h : CodeCache.findBlob sc t m fuel pc = .ok cb) (hcb : cb ≠ 0) :
    CodeHeap.findBlob sc t m fuel t._code_cache_heap pc = .ok cb ∧
    CodeBlob.contains t m cb pc = .ok true := by
  unfold CodeCache.findBlob at h
  simp only [Res.bind_eq_ok] at h
  obtain ⟨r, hr, h⟩ := h
  split at h
  · simp only [Res.bind_eq_ok] at h
    obtain ⟨c, hc, h⟩ := h
    cases c with
    | true =>
      simp only [if_true, Res.pure_eq, Res.ok.injEq] at h
      subst h
      exact ⟨hr, hc⟩
    | false =>
      simp at h
      exact absurd h.symm hcb
  · simp only [Res.pure_eq, Res.ok.injEq] at h
    exact absurd h.symm hcb

/-- What `CodeBlob::contains` tests on a 64-bit blob address: the blob starts at
or below `pc`, and `pc` is below the end pointer `at(size())`; that is the
integer `this + size()` unless `this + size()` is negative. -/
theorem CodeBlob.contains_true_bounds (t : VMStructs) (m : Mem) (this pc : Nat)
    (hthis : this < WORD)
    (h : CodeBlob.contains t m this pc = .ok true) :
    this ≤ pc ∧ ∃ sz, CodeBlob.size t m this = .ok sz ∧ pc < VMStructs.at_ this sz ∧
      (0 ≤ (this : Int) + sz → (pc : Int) < (this : Int) + sz) := by
  unfold CodeBlob.contains at h
  rw [VMStructs.at_, ptrAdd_zero this hthis] at h
  split at h
  · rename_i hle
    simp only [Res.bind_eq_ok, Res.pure_eq, Res.ok.injEq, decide_eq_true_eq] at h
    obtain ⟨sz, hsz, hlt⟩ := h
    refine ⟨hle, sz, hsz, hlt, fun hnn => ?_⟩
    have hr := readInt_range m _ sz hsz
    unfold VMStructs.at_ ptrAdd at hlt
    unfold WORD at *
    omega
  · simp at h

/-- C2 (counterexample): the blob at `0x1002` declares the size `-8192`, so the
integer interval `[blobAddr, blobAddr + size())` is empty and does not cover
`pc = 0x1010`; the end pointer `at(size())` wraps to `2 ^ 64 - 4094`, the check
passes and the top-level lookup returns the blob. -/
theorem C2_counterexample :
    CodeCache.findBlob true exTable (memBlock 0 (2 ^ 32 - 8192)) 1 0x1010 = .ok 0x1002 ∧
    CodeBlob.size exTable (memBlock 0 (2 ^ 32 - 8192)) 0x1002 = .ok (-8192) ∧
    VMStructs.at_ 0x1002 (-8192) = 2 ^ 64 - 4094 ∧
    ¬ ((0x1010 : Int) < (0x1002 : Int) + (-8192)) := by
  decide

/-- C2 (amended): whenever `CodeCache::findBlob(pc)` returns a blob (non-null),
`blob.contains(pc)` holds: `blobAddr <= pc` and `pc` is below the end pointer
`at(size())`, computed modulo `2 ^ 64`; this gives `pc < blobAddr + size()`
unless `blobAddr + size()` is negative, so a blob with `blobAddr + size() >= 0`
whose declared size does not cover `pc` is rejected. -/
theorem C2_findBlob_result_contains_pc (sc : Bool) (t : VMStructs) (m : Mem)
    (fuel pc cb : Nat)
    (h : CodeCache.findBlob sc t m fuel pc = .ok cb) (hcb : cb ≠ 0) :
    CodeBlob.contains t m cb pc = .ok true ∧ cb ≤ pc ∧
    ∃ sz, CodeBlob.size t m cb = .ok sz ∧ pc < VMStructs.at_ cb sz ∧
      (0 ≤ (cb : Int) + sz → (pc : Int) < (cb : Int) + sz) := by
  obtain ⟨hheap, hc⟩ := CodeCache.findBlob_ok_nonnull sc t m fuel pc cb h hcb
  have hlt := CodeHeap.findBlob_lt sc t m fuel _ pc cb hheap
  obtain ⟨hle, hsz⟩ := CodeBlob.contains_true_bounds t m cb pc hlt hc
  exact ⟨hc, hle, hsz⟩

/-- C2 (witness): the amended statement at the blob of 200 bytes at `0x1002`
and `pc = 0x1090`. -/
theorem C2_findBlob_result_contains_pc_witness :
    CodeCache.findBlob true exTable (memBlock 0 200) 2 0x1090 = .ok 0x1002 ∧
    CodeBlob.contains exTable (memBlock 0 200) 0x1002 0x1090 = .ok true ∧ 0x1002 ≤ 0x1090 ∧
    ∃ sz, CodeBlob.size exTable (memBlock 0 200) 0x1002 = .ok sz ∧
      0x1090 < VMStructs.at_ 0x1002 sz ∧
      (0 ≤ ((0x1002 : Nat) : Int) + sz → ((0x1090 : Nat) : Int) < ((0x1002 : Nat) : Int) + sz) :=
  ⟨by decide,
    C2_findBlob_result_contains_pc true exTable (memBlock 0 200) 2 0x1090 0x1002
      (by decide) (by decide)⟩

/-! ## C3: the free marker `0xFF` -/

/-- The tail of `CodeHeap::findBlob` once the loop has ended at index `k`: the
result is decided by the `_used` byte of the block alone, null when it is set
and the pointer two bytes above the block when it is clear. -/
theorem CodeHeap.findBlob_of_walk (sc : Bool) (t : VMStructs) (m : Mem)
    (fuel this pc b i k block : Nat) (c : Int) (used : Bool)
    (hin : VirtualSpace.contains t m (CodeHeap.memory t this) pc = .ok true)
    (hb : VirtualSpace.low t m (CodeHeap.segmap t this) = .ok b)
    (hi : CodeHeap.addrToIndex t m this pc = .ok i)
    (hc : readChar sc m (b + i) = .ok c) (hff : c ≠ 0xff)
    (hk : CodeHeap.walk sc m b fuel i = .ok k)
    (hblock : CodeHeap.indexToAddr t m this k = .ok block)
    (hused : readBool m (ptrAdd block t._heap_block_used_offset) = .ok used) :
    CodeHeap.findBlob sc t m fuel this pc =
      .ok (if used then 0 else (block + 2 * CodeBlob.sizeof) % WORD) := by
  unfold CodeHeap.findBlob
  simp only [hin, hb, hi, hc, hk, hblock, hused, Res.ok_bind, Bool.not_true]
  cases used <;> simp [hff]

/-- A signed `char` promoted to `int` is at most 127: the test `b[i] == 0xff`
cannot hold where `char` is signed. -/
theorem VMS.readChar_signed_ne_0xff (m : Mem) (a : Nat) (c : Int)
    (h : readChar true m a = .ok c) : c ≠ 0xff := by
  simp only [readChar, Res.bind_eq_ok, Res.pure_eq, Res.ok.injEq, if_true] at h
  obtain ⟨u, _, hc⟩ := h
  subst hc
  unfold toSigned
  split <;> omega

/-- Where `char` is unsigned, a segment-map byte `0xFF` at the index of `pc`
makes `CodeHeap::findBlob` and `CodeCache::findBlob` return null. -/
theorem CodeHeap.findBlob_free_marker_unsigned (t : VMStructs) (m : Mem)
    (fuel this pc b i : Nat)
    (hin : VirtualSpace.contains t m (CodeHeap.memory t this) pc = .ok true)
    (hb : VirtualSpace.low t m (CodeHeap.segmap t this) = .ok b)
    (hi : CodeHeap.addrToIndex t m this pc = .ok i)
    (hff : readByte m (b + i) = .ok 0xff) :
    CodeHeap.findBlob false t m fuel this pc = .ok 0 ∧
    (this = t._code_cache_heap → CodeCache.findBlob false t m fuel pc = .ok 0) := by
  have h : CodeHeap.findBlob false t m fuel this pc = .ok 0 := by
    unfold CodeHeap.findBlob
    simp [hin, hb, hi, readChar, hff]
  refine ⟨h, fun hthis => ?_⟩
  subst hthis
  exact CodeCache.findBlob_of_null false t m fuel pc h

/-- Where `char` is signed, the byte `0xFF` at the index `i` of `pc` is read as
`-1`: the free-marker test fails, the loop does not run, and `i` is taken as a
block start. -/
theorem CodeHeap.findBlob_free_marker_signed (t : VMStructs) (m : Mem)
    (fuel this pc b i block : Nat) (used : Bool)
    (hin : VirtualSpace.contains t m (CodeHeap.memory t this) pc = .ok true)
    (hb : VirtualSpace.low t m (CodeHeap.segmap t this) = .ok b)
    (hi : CodeHeap.addrToIndex t m this pc = .ok i)
    (hff : readByte m (b + i) = .ok 0xff)
    (hblock : CodeHeap.indexToAddr t m this i = .ok block)
    (hused : readBool m (ptrAdd block t._heap_block_used_offset) = .ok used)
    (hfuel : 1 ≤ fuel) :
    CodeHeap.findBlob true t m fuel this pc =
      .ok (if used then 0 else (block + 2 * CodeBlob.sizeof) % WORD) := by
  obtain ⟨f, rfl⟩ : ∃ f, fuel = f + 1 := ⟨fuel - 1, by omega⟩
  have hc : readChar true m (b + i) = .ok (-1) := by
    unfold readChar
    rw [hff]
    simp [toSigned]
  have hw : CodeHeap.walk true m b (f + 1) i = .ok i := by
    unfold CodeHeap.walk
    rw [hc]
    simp
  exact CodeHeap.findBlob_of_walk true t m (f + 1) this pc b i i block (-1) used
    hin hb hi hc (by omega) hw hblock hused

/-- C3 (the code at the failing input): where `char` is signed, `pc = 0x1090`
lies inside the code memory, its segment index is 2, the segment-map byte at
index 2 is `0xFF`, and both lookups return the non-null `0x1082`. -/
theorem C3_free_marker_missed_signed_char :
    VirtualSpace.contains exTable memFree (CodeHeap.memory exTable 0x100) 0x1090 = .ok true ∧
    VirtualSpace.low exTable memFree (CodeHeap.segmap exTable 0x100) = .ok 0x2000 ∧
    CodeHeap.addrToIndex exTable memFree 0x100 0x1090 = .ok 2 ∧
    readByte memFree (0x2000 + 2) = .ok 0xff ∧
    CodeHeap.findBlob true exTable memFree 1 0x100 0x1090 = .ok 0x1082 ∧
    CodeCache.findBlob true exTable memFree 1 0x1090 = .ok 0x1082 := by
  decide

/-! ## C4, C5: the `_used` flag of the block header -/

/-- C4 (the code at the failing input): the walk from the segment of
`pc = 0x1090` ends at the block start `0x1000`, whose `_used` flag is false;
`CodeHeap::findBlob` and `CodeCache::findBlob` return the blob `0x1002` instead
of null, whatever the signedness of `char`. -/
theorem C4_unused_block_is_returned :
    CodeHeap.walk true (memBlock 0 200) 0x2000 2 2 = .ok 0 ∧
    CodeHeap.indexToAddr exTable (memBlock 0 200) 0x100 0 = .ok 0x1000 ∧
    readBool (memBlock 0 200) (ptrAdd 0x1000 exTable._heap_block_used_offset) = .ok false ∧
    CodeHeap.findBlob true exTable (memBlock 0 200) 2 0x100 0x1090 = .ok 0x1002 ∧
    CodeCache.findBlob true exTable (memBlock 0 200) 2 0x1090 = .ok 0x1002 ∧
    CodeHeap.findBlob false exTable (memBlock 0 200) 2 0x100 0x1090 = .ok 0x1002 ∧
    CodeCache.findBlob false exTable (memBlock 0 200) 2 0x1090 = .ok 0x1002 := by
  decide

/-- C5 (the code at the failing input): `pc = 0x1090` is inside the code
memory, the walk from its index 2 reaches the block start `k = 0`, the block at
`0x1000` has its `_used` flag set and the blob at `0x1002` covers `pc`; yet
`CodeHeap::findBlob` and `CodeCache::findBlob` return null. -/
theorem C5_used_block_is_rejected :
    VirtualSpace.contains exTable (memBlock 1 200) (CodeHeap.memory exTable 0x100) 0x1090
      = .ok true ∧
    CodeHeap.addrToIndex exTable (memBlock 1 200) 0x100 0x1090 = .ok 2 ∧
    CodeHeap.walk true (memBlock 1 200) 0x2000 2 2 = .ok 0 ∧
    CodeHeap.indexToAddr exTable (memBlock 1 200) 0x100 0 = .ok 0x1000 ∧
    readBool (memBlock 1 200) (ptrAdd 0x1000 exTable._heap_block_used_offset) = .ok true ∧
    CodeBlob.contains exTable (memBlock 1 200) (0x1000 + 2 * CodeBlob.sizeof) 0x1090
      = .ok true ∧
    CodeHeap.findBlob true exTable (memBlock 1 200) 2 0x100 0x1090 = .ok 0 ∧
    CodeCache.findBlob true exTable (memBlock 1 200) 2 0x1090 = .ok 0 ∧
    CodeHeap.findBlob false exTable (memBlock 1 200) 2 0x100 0x1090 = .ok 0 ∧
    CodeCache.findBlob false exTable (memBlock 1 200) 2 0x1090 = .ok 0 := by
  decide

/-! ## The loop, its observers, and descending runs (C6, C9) -/

/-- The loop, its trace and its step count fail or succeed together, and the
loop returns the last index of the trace. -/
theorem CodeHeap.walk_eq_trace (sc : Bool) (m : Mem) (b : Nat) :
    ∀ (fuel i : Nat),
      (∀ l, CodeHeap.walkTrace sc m b fuel i = .ok l → l ≠ []) ∧
      CodeHeap.walk sc m b fuel i =
        (CodeHeap.walkTrace sc m b fuel i >>= fun l => pure (l.getLastD i)) := by
  intro fuel
  induction fuel with
  | zero =>
    intro i
    simp [CodeHeap.walk, CodeHeap.walkTrace]
  | succ fuel ih =>
    intro i
    unfold CodeHeap.walk CodeHeap.walkTrace
    cases hc : readChar sc m (b + i) with
    | fault a => simp
    | timeout => simp
    | ok c =>
      simp only [Res.ok_bind]
      by_cases hpos : c > 0
      · simp only [hpos, if_true]
        obtain ⟨hne, hw⟩ := ih (sizeSub i c)
        rw [hw]
        cases ht : CodeHeap.walkTrace sc m b fuel (sizeSub i c) with
        | fault a => simp
        | timeout => simp
        | ok l =>
          have hl := hne l ht
          cases l with
          | nil => exact absurd rfl hl
          | cons x xs =>
            simp only [Res.ok_bind, Res.pure_eq, Res.ok.injEq, List.getLastD_cons,
              List.getLastD_eq_getLast?, List.getLast?_eq_getLast (x :: xs) hl, Option.getD_some]
            refine ⟨fun l hl2 => by rw [← hl2]; exact List.cons_ne_nil _ _, ?_⟩
            rw [List.getLast?_eq_getLast (i :: x :: xs) (List.cons_ne_nil _ _)]
            simp
      · simp [hpos]

/-- The lookup is its index observer followed by the block test: nothing is
returned but null when at most one index was read (failed range test, or free
marker), and otherwise the block of the last index read decides. -/
theorem CodeHeap.findBlob_eq_indices (sc : Bool) (t : VMStructs) (m : Mem)
    (fuel this pc : Nat) :
    CodeHeap.findBlob sc t m fuel this pc =
      (CodeHeap.findBlobIndices sc t m fuel this pc >>= fun l =>
        if l.length ≤ 1 then pure 0 else do
          let block ← CodeHeap.indexToAddr t m this (l.getLastD 0)
          let used ← readBool m (ptrAdd block t._heap_block_used_offset)
          if used then pure 0 else pure ((block + 2 * CodeBlob.sizeof) % WORD)) := by
  unfold CodeHeap.findBlob CodeHeap.findBlobIndices
  cases VirtualSpace.contains t m (CodeHeap.memory t this) pc with
  | fault a => simp
  | timeout => simp
  | ok inside =>
    cases inside with
    | false => simp
    | true =>
      simp only [Res.ok_bind, Bool.not_true]
      cases VirtualSpace.low t m (CodeHeap.segmap t this) with
      | fault a => simp
      | timeout => simp
      | ok b =>
        simp only [Res.ok_bind]
        cases CodeHeap.addrToIndex t m this pc with
        | fault a => simp
        | timeout => simp
        | ok i =>
          simp only [Res.ok_bind]
          cases readChar sc m (b + i) with
          | fault a => simp
          | timeout => simp
          | ok c =>
            simp only [Res.ok_bind]
            by_cases hff : c = 0xff
            · simp [hff]
            · obtain ⟨hne, hw⟩ := CodeHeap.walk_eq_trace sc m b fuel i
              simp only [hff, Bool.false_eq_true, if_false, hw]
              cases ht : CodeHeap.walkTrace sc m b fuel i with
              | fault a => simp
              | timeout => simp
              | ok l =>
                have hl := hne l ht
                cases l with
                | nil => exact absurd rfl hl
                | cons x xs =>
                  simp [List.getLast?_eq_getLast (x :: xs) hl]

/-- Subtracting a distance `c` with `0 <= c <= i` from the index `i`. -/
theorem VMS.sizeSub_of_le (i : Nat) (c : Int) (h0 : 0 ≤ c) (hc : c ≤ i) (hi : i < WORD) :
    sizeSub i c = i - c.toNat := by
  unfold sizeSub
  unfold WORD at *
  omega

/-- The `char` read where the byte is `d`: `d` itself when `char` is unsigned,
or when `d < 128`. -/
theorem VMS.readChar_of_byte (sc : Bool) (m : Mem) (a d : Nat)
    (h : readByte m a = .ok d) (hsc : sc = true → d < 128) :
    readChar sc m a = .ok (d : Int) := by
  unfold readChar
  rw [h]
  cases sc with
  | false => simp
  | true =>
    have := hsc rfl
    simp only [Res.ok_bind, if_true, Res.pure_eq, Res.ok.injEq]
    unfold toSigned
    split <;> omega

/-- On a descending run `0, 1, ..., n - 1` starting at index `k`, the loop
started at `k + j` reads `b[k + j]`, jumps to `k` when `j > 0`, and stops. -/
theorem CodeHeap.walkTrace_descending_run (sc : Bool) (m : Mem) (b k n j fuel : Nat)
    (hrun : ∀ d, d < n → readByte m (b + (k + d)) = .ok d)
    (hsc : sc = true → n ≤ 128) (hk : k + n ≤ WORD) (hj : j < n) (hfuel : 2 ≤ fuel) :
    CodeHeap.walkTrace sc m b fuel (k + j) = .ok (if j = 0 then [k] else [k + j, k]) := by
  obtain ⟨f, rfl⟩ : ∃ f, fuel = f + 2 := ⟨fuel - 2, by omega⟩
  have h0 : readChar sc m (b + (k + 0)) = .ok ((0 : Nat) : Int) :=
    readChar_of_byte sc m _ 0 (hrun 0 (by omega)) (fun _ => by omega)
  have hjc : readChar sc m (b + (k + j)) = .ok (j : Int) :=
    readChar_of_byte sc m _ j (hrun j hj) (fun h => by have := hsc h; omega)
  simp only [Nat.add_zero, Nat.cast_zero] at h0
  by_cases hj0 : j = 0
  · subst hj0
    unfold CodeHeap.walkTrace
    simp [h0]
  · have hsub : sizeSub (k + j) (j : Int) = k := by
      rw [sizeSub_of_le (k + j) j (by omega) (by omega) (by omega)]
      simp
    unfold CodeHeap.walkTrace
    rw [hjc]
    have hpos : (j : Int) > 0 := by omega
    simp only [Res.ok_bind, hpos, if_true, hsub]
    unfold CodeHeap.walkTrace
    simp [h0, hj0]

/-- On a descending run of at most 255 segments (at most 128 where `char` is
signed) every pc whose segment index falls in the run gets the same result
from `CodeHeap::findBlob`, decided by the block at `indexToAddr(k)` alone. -/
theorem CodeHeap.findBlob_descending_run (sc : Bool) (t : VMStructs) (m : Mem)
    (fuel this pc b k n i block : Nat) (used : Bool)
    (hin : VirtualSpace.contains t m (CodeHeap.memory t this) pc = .ok true)
    (hb : VirtualSpace.low t m (CodeHeap.segmap t this) = .ok b)
    (hi : CodeHeap.addrToIndex t m this pc = .ok i) (hik : k ≤ i ∧ i < k + n)
    (hrun : ∀ d, d < n → readByte m (b + (k + d)) = .ok d)
    (hn : n ≤ 255) (hsc : sc = true → n ≤ 128) (hk : k + n ≤ WORD)
    (hblock : CodeHeap.indexToAddr t m this k = .ok block)
    (hused : readBool m (ptrAdd block t._heap_block_used_offset) = .ok used)
    (hfuel : 2 ≤ fuel) :
    CodeHeap.findBlob sc t m fuel this pc =
      .ok (if used then 0 else (block + 2 * CodeBlob.sizeof) % WORD) := by
  obtain ⟨j, rfl⟩ : ∃ j, i = k + j := ⟨i - k, by omega⟩
  have hj : j < n := by omega
  have hjc : readChar sc m (b + (k + j)) = .ok (j : Int) :=
    readChar_of_byte sc m _ j (hrun j hj) (fun h => by have := hsc h; omega)
  have htr := CodeHeap.walkTrace_descending_run sc m b k n j fuel hrun hsc hk hj hfuel
  have hw : CodeHeap.walk sc m b fuel (k + j) = .ok k := by
    rw [(CodeHeap.walk_eq_trace sc m b fuel (k + j)).2, htr]
    by_cases hj0 : j = 0 <;> simp [hj0]
  exact CodeHeap.findBlob_of_walk sc t m fuel this pc b (k + j) k block (j : Int) used
    hin hb hi hjc (by omega) hw hblock hused

/-- C6 (the code at the failing input): where `char` is signed and one block
spans 130 segments (segment-map byte `j` at index `j`), the pcs `0x10045`
(index 1) and `0x12045` (index 129) are resolved to different blocks: the
first to the block at `memory.low + (0 << 6) = 0x10000`, the second to
`0x12040`, the address of segment 129. Where `char` is unsigned both resolve
to the block at `0x10000`. -/
theorem C6_long_run_split_signed_char :
    (∀ d, d < 130 → readByte memLongRun (0x2000 + (0 + d)) = .ok d) ∧
    VirtualSpace.contains exTable memLongRun (CodeHeap.memory exTable 0x100) 0x10045
      = .ok true ∧
    VirtualSpace.contains exTable memLongRun (CodeHeap.memory exTable 0x100) 0x12045
      = .ok true ∧
    CodeHeap.addrToIndex exTable memLongRun 0x100 0x10045 = .ok 1 ∧
    CodeHeap.addrToIndex exTable memLongRun 0x100 0x12045 = .ok 129 ∧
    CodeHeap.indexToAddr exTable memLongRun 0x100 0 = .ok 0x10000 ∧
    CodeHeap.findBlob true exTable memLongRun 2 0x100 0x10045 = .ok 0x10002 ∧
    CodeHeap.findBlob true exTable memLongRun 2 0x100 0x12045 = .ok 0x12042 ∧
    CodeHeap.findBlob false exTable memLongRun 2 0x100 0x10045 = .ok 0x10002 ∧
    CodeHeap.findBlob false exTable memLongRun 2 0x100 0x12045 = .ok 0x10002 := by
  refine ⟨?_, ?_, ?_, ?_, ?_, ?_, ?_, ?_, ?_, ?_⟩
  · set_option maxRecDepth 8000 in decide
  all_goals decide

/-! ## C9: the number of loop iterations on a descending run -/

/-- C9 (counterexample): on the run `[0, 1, 2, 3]` the loop started at index 3,
whose byte is 3, ends at index 0 after one iteration, not three. -/
theorem C9_counterexample :
    (∀ d, d < 4 → readByte (memBlock 0 200) (0x2000 + (0 + d)) = .ok d) ∧
    CodeHeap.walk true (memBlock 0 200) 0x2000 10 3 = .ok 0 ∧
    CodeHeap.walkTrace true (memBlock 0 200) 0x2000 10 3 = .ok [3, 0] ∧
    CodeHeap.walkSteps true (memBlock 0 200) 0x2000 10 3 = .ok 1 ∧
    CodeHeap.walkSteps false (memBlock 0 200) 0x2000 10 3 = .ok 1 ∧
    CodeHeap.walkSteps true (memBlock 0 200) 0x2000 10 3 ≠ .ok 3 := by
  decide

/-- C9 (amended): on a descending-distance run (segment-map byte `d` at index
`k + d` for every `d < n`, the indices being `size_t` values; `n <= 128` where
`char` is signed), the backward walk started at any index `k + j` of the run
terminates, with any fuel of at least 2, at the index `k` holding the 0 byte,
after exactly one loop iteration when the initial distance `j` is positive and
none when it is 0. -/
theorem C9_descending_run_one_step (sc : Bool) (m : Mem) (b k n j fuel : Nat)
    (hrun : ∀ d, d < n → readByte m (b + (k + d)) = .ok d)
    (hsc : sc = true → n ≤ 128) (hk : k + n ≤ WORD) (hj : j < n) (hfuel : 2 ≤ fuel) :
    CodeHeap.walk sc m b fuel (k + j) = .ok k ∧
    readByte m (b + (k + 0)) = .ok 0 ∧
    CodeHeap.walkSteps sc m b fuel (k + j) = .ok (if j = 0 then 0 else 1) := by
  have htr := CodeHeap.walkTrace_descending_run sc m b k n j fuel hrun hsc hk hj hfuel
  refine ⟨?_, hrun 0 (by omega), ?_⟩
  · rw [(CodeHeap.walk_eq_trace sc m b fuel (k + j)).2, htr]
    by_cases hj0 : j = 0 <;> simp [hj0]
  · unfold CodeHeap.walkSteps
    rw [htr]
    by_cases hj0 : j = 0 <;> simp [hj0]

/-- C9 (witness): the amended statement on the run `[0, 1, 2, 3]`, started at
index 3. -/
theorem C9_descending_run_one_step_witness :
    CodeHeap.walk true (memBlock 0 200) 0x2000 2 (0 + 3) = .ok 0 ∧
    readByte (memBlock 0 200) (0x2000 + (0 + 0)) = .ok 0 ∧
    CodeHeap.walkSteps true (memBlock 0 200) 0x2000 2 (0 + 3) = .ok (if 3 = 0 then 0 else 1) :=
  C9_descending_run_one_step true (memBlock 0 200) 0x2000 0 4 3 2
    (by decide) (by decide) (by decide) (by decide) (by decide)

/-! ## C7, C8: indices read and length of the walk -/

/-- A passed range test: the reserved low is at or below `addr`, which is below
the committed high. -/
theorem VirtualSpace.contains_true_range (t : VMStructs) (m : Mem) (vs addr : Nat)
    (h : VirtualSpace.contains t m vs addr = .ok true) :
    ∃ lb hi, VirtualSpace.low_boundary t m vs = .ok lb ∧ VirtualSpace.high t m vs = .ok hi ∧
      lb ≤ addr ∧ addr < hi := by
  unfold VirtualSpace.contains at h
  simp only [Res.bind_eq_ok] at h
  obtain ⟨lb, hlb, h⟩ := h
  split at h
  · rename_i hle
    simp only [Res.bind_eq_ok, Res.pure_eq, Res.ok.injEq, decide_eq_true_eq] at h
    obtain ⟨hi, hhi, hlt⟩ := h
    exact ⟨lb, hi, hlb, hhi, hle, hlt⟩
  · simp at h

/-- The segment index of a pc at or above `memory.low`, less than `2 ^ 63`
bytes above it: the byte distance shifted right. -/
theorem CodeHeap.addrToIndex_of_ge (t : VMStructs) (m : Mem) (this pc lo : Nat) (k : Int)
    (hlo : VirtualSpace.low t m (CodeHeap.memory t this) = .ok lo)
    (hk : CodeHeap.log2SegmentSize t m this = .ok k)
    (hle : lo ≤ pc) (hlt : pc - lo < 2 ^ 63) :
    CodeHeap.addrToIndex t m this pc = .ok ((pc - lo) / 2 ^ shiftCount k) := by
  have hlow : lo < WORD := readPtr_lt m _ lo hlo
  unfold CodeHeap.addrToIndex
  rw [hlo, hk]
  simp only [Res.ok_bind, Res.pure_eq, Res.ok.injEq]
  have hd : toSigned 64 (pc + WORD - lo % WORD) = ((pc - lo : Nat) : Int) := by
    unfold toSigned
    unfold WORD at *
    split <;> omega
  rw [hd, ← Int.natCast_div]
  have hq : (pc - lo) / 2 ^ shiftCount k ≤ pc - lo := Nat.div_le_self _ _
  generalize (pc - lo) / 2 ^ shiftCount k = q at hq ⊢
  unfold WORD
  omega

/-- The index of a pc of the committed range is below the segment count. -/
theorem VMS.index_lt_count (lo hi pc s : Nat) (hle : lo ≤ pc) (hlt : pc < hi) :
    (pc - lo) / 2 ^ s < (hi - lo + 2 ^ s - 1) / 2 ^ s := by
  have hpos : 0 < 2 ^ s := Nat.two_pow_pos s
  have h1 : (pc - lo) / 2 ^ s ≤ (hi - lo - 1) / 2 ^ s := Nat.div_le_div_right (by omega)
  have h2 : hi - lo + 2 ^ s - 1 = (hi - lo - 1) + 2 ^ s := by omega
  rw [h2, Nat.add_div_right _ hpos]
  omega

/-- On a segment map whose `char` at every index `j < n` is readable and at
most `j`, the loop started at an index `i < n` with fuel above `i` ends: it
reads indices at most `i`, at most `i + 1` of them, and stops at an index
whose `char` is not positive. -/
theorem CodeHeap.walk_wellformed (sc : Bool) (m : Mem) (b n : Nat)
    (hwf : ∀ j, j < n → ∃ c, readChar sc m (b + j) = .ok c ∧ c ≤ (j : Int)) :
    ∀ (fuel i : Nat), i < n → i < fuel →
      ∃ l k, CodeHeap.walkTrace sc m b fuel i = .ok l ∧ CodeHeap.walk sc m b fuel i = .ok k ∧
        (∀ x, x ∈ l → x ≤ i) ∧ l.length ≤ i + 1 ∧ k ≤ i ∧
        ∃ c, readChar sc m (b + k) = .ok c ∧ c ≤ 0 := by
  intro fuel
  induction fuel with
  | zero => intro i _ h; omega
  | succ fuel ih =>
    intro i hin hif
    obtain ⟨c, hc, hci⟩ := hwf i hin
    unfold CodeHeap.walkTrace CodeHeap.walk
    rw [hc]
    simp only [Res.ok_bind]
    by_cases hpos : c > 0
    · have hj : sizeSub i c < i := by
        unfold sizeSub
        unfold WORD
        omega
      obtain ⟨l, k, hl, hk, hall, hlen, hki, hstop⟩ :=
        ih (sizeSub i c) (by omega) (by omega)
      refine ⟨i :: l, k, ?_, ?_, ?_, ?_, by omega, hstop⟩
      · simp [hpos, hl]
      · simp [hpos, hk]
      · intro x hx
        rcases List.mem_cons.mp hx with rfl | hx
        · exact Nat.le_refl _
        · have := hall x hx
          omega
      · simp only [List.length_cons]
        omega
    · refine ⟨[i], i, ?_, ?_, ?_, ?_, Nat.le_refl _, c, hc, by omega⟩
      · simp [hpos]
      · simp [hpos]
      · intro x hx
        simp only [List.mem_singleton] at hx
        omega
      · simp

/-- The segment index of a pc that passes the range test and is not below
`memory.low` is below the total segment count, when the committed range spans
at most `2 ^ 63` bytes. -/
theorem CodeHeap.addrToIndex_lt_count (t : VMStructs) (m : Mem) (this pc lo hi n : Nat)
    (hin : VirtualSpace.contains t m (CodeHeap.memory t this) pc = .ok true)
    (hlo : VirtualSpace.low t m (CodeHeap.memory t this) = .ok lo)
    (hhi : VirtualSpace.high t m (CodeHeap.memory t this) = .ok hi)
    (hle : lo ≤ pc) (hspan : hi - lo ≤ 2 ^ 63)
    (hn : CodeHeap.segmentCount t m this = .ok n) :
    ∃ i, CodeHeap.addrToIndex t m this pc = .ok i ∧ i < n := by
  obtain ⟨lb, hi2, _, hhi2, _, hpchi⟩ := VirtualSpace.contains_true_range t m _ pc hin
  rw [hhi] at hhi2
  simp only [Res.ok.injEq] at hhi2
  subst hhi2
  unfold CodeHeap.segmentCount at hn
  rw [hlo, hhi] at hn
  simp only [Res.ok_bind, Res.bind_eq_ok, Res.pure_eq, Res.ok.injEq] at hn
  obtain ⟨k, hk, hn⟩ := hn
  refine ⟨_, CodeHeap.addrToIndex_of_ge t m this pc lo k hlo hk hle (by omega), ?_⟩
  rw [← hn]
  exact index_lt_count lo hi pc (shiftCount k) hle hpchi

namespace VMS

/-- Reading a byte does not loop. -/
theorem readByte_ne_timeout (m : Mem) (a : Nat) : readByte m a ≠ .timeout := by
  unfold readByte
  split <;> simp

/-- Reading a little-endian number does not loop. -/
theorem readLE_ne_timeout (m : Mem) (n : Nat) : ∀ a, readLE m a n ≠ .timeout := by
  induction n with
  | zero => intro a; simp [readLE]
  | succ n ih =>
    intro a
    unfold readLE
    cases hb : readByte m a with
    | fault x => simp
    | timeout => exact absurd hb (readByte_ne_timeout m a)
    | ok lo =>
      simp only [Res.ok_bind]
      cases hr : readLE m (a + 1) n with
      | fault x => simp
      | timeout => exact absurd hr (ih (a + 1))
      | ok hi => simp

/-- Reading an `int` does not loop. -/
theorem readInt_ne_timeout (m : Mem) (a : Nat) : readInt m a ≠ .timeout := by
  unfold readInt
  cases hr : readLE m a 4 with
  | fault x => simp
  | timeout => exact absurd hr (readLE_ne_timeout m 4 a)
  | ok u => simp

/-- Reading a `bool` does not loop. -/
theorem readBool_ne_timeout (m : Mem) (a : Nat) : readBool m a ≠ .timeout := by
  unfold readBool
  cases hb : readByte m a with
  | fault x => simp
  | timeout => exact absurd hb (readByte_ne_timeout m a)
  | ok u => simp

end VMS

/-- Computing a block address does not loop. -/
theorem CodeHeap.indexToAddr_ne_timeout (t : VMStructs) (m : Mem) (this index : Nat) :
    CodeHeap.indexToAddr t m this index ≠ .timeout := by
  unfold CodeHeap.indexToAddr
  cases hlo : VirtualSpace.low t m (CodeHeap.memory t this) with
  | fault x => simp
  | timeout => exact absurd hlo (readLE_ne_timeout m 8 _)
  | ok lo =>
    simp only [Res.ok_bind]
    cases hk : CodeHeap.log2SegmentSize t m this with
    | fault x => simp
    | timeout => exact absurd hk (readInt_ne_timeout m _)
    | ok k => simp

/-- Once the loop has ended, the rest of `CodeHeap::findBlob` does not run out
of fuel. -/
theorem CodeHeap.findBlob_ne_timeout_of_walk (sc : Bool) (t : VMStructs) (m : Mem)
    (fuel this pc b i k : Nat) (c : Int)
    (hin : VirtualSpace.contains t m (CodeHeap.memory t this) pc = .ok true)
    (hb : VirtualSpace.low t m (CodeHeap.segmap t this) = .ok b)
    (hi : CodeHeap.addrToIndex t m this pc = .ok i)
    (hc : readChar sc m (b + i) = .ok c)
    (hk : CodeHeap.walk sc m b fuel i = .ok k) :
    CodeHeap.findBlob sc t m fuel this pc ≠ .timeout := by
  unfold CodeHeap.findBlob
  simp only [hin, hb, hi, hc, hk, Res.ok_bind, Bool.not_true]
  by_cases hff : c = 0xff
  · simp [hff]
  · simp only [Bool.false_eq_true, if_false, hff]
    cases hblock : CodeHeap.indexToAddr t m this k with
    | fault x => simp
    | timeout => exact absurd hblock (CodeHeap.indexToAddr_ne_timeout t m this k)
    | ok block =>
      simp only [Res.ok_bind]
      cases hused : readBool m (ptrAdd block t._heap_block_used_offset) with
      | fault x => simp
      | timeout => exact absurd hused (readBool_ne_timeout m _)
      | ok used => cases used <;> simp

/-- C7 (counterexample): the segment count is 4 and `pc = 0x1010` passes the
range test, but the segment map `[3, 1, 2, 3]` sends the walk from index 0 to
index `2 ^ 64 - 3`, three bytes below the map: when that byte is mapped the
lookup reads it and returns the blob `0xF42`; when it is not, the lookup faults
at `0x1FFD`. Neither outcome is not-found. -/
theorem C7_counterexample :
    VirtualSpace.contains exTable (memUnderrun [0, 9, 9]) (CodeHeap.memory exTable 0x100) 0x1010
      = .ok true ∧
    CodeHeap.segmentCount exTable (memUnderrun [0, 9, 9]) 0x100 = .ok 4 ∧
    CodeHeap.findBlobIndices true exTable (memUnderrun [0, 9, 9]) 2 0x100 0x1010
      = .ok [0, 0, 2 ^ 64 - 3] ∧
    ¬ (2 ^ 64 - 3 < 4) ∧
    CodeHeap.findBlob true exTable (memUnderrun [0, 9, 9]) 2 0x100 0x1010 = .ok 0xF42 ∧
    CodeCache.findBlob true exTable (memUnderrun [0, 9, 9]) 2 0x1010 = .ok 0xF42 ∧
    VirtualSpace.contains exTable (memUnderrun []) (CodeHeap.memory exTable 0x100) 0x1010
      = .ok true ∧
    CodeHeap.findBlob true exTable (memUnderrun []) 2 0x100 0x1010 = .fault 0x1FFD ∧
    CodeCache.findBlob true exTable (memUnderrun []) 2 0x1010 = .fault 0x1FFD := by
  decide

/-- C7 (amended): for every pc that passes `memory.contains(pc)` and is not
below `memory.low`, the committed range `[low, high)` spanning at most `2 ^ 63`
bytes, and every segment-map content whose `char` at each index `j` below the
total segment count is readable and at most `j`, `CodeHeap::findBlob` (with
fuel of at least the segment count) reads the segment map, and every index it
reads (the initial `addrToIndex(pc)` and each index of the backward walk) lies
in `[0, total segment count)`. -/
theorem C7_indices_in_bounds_wellformed (sc : Bool) (t : VMStructs) (m : Mem)
    (fuel this pc lo hi b n : Nat)
    (hin : VirtualSpace.contains t m (CodeHeap.memory t this) pc = .ok true)
    (hlo : VirtualSpace.low t m (CodeHeap.memory t this) = .ok lo)
    (hhi : VirtualSpace.high t m (CodeHeap.memory t this) = .ok hi)
    (hle : lo ≤ pc) (hspan : hi - lo ≤ 2 ^ 63)
    (hb : VirtualSpace.low t m (CodeHeap.segmap t this) = .ok b)
    (hn : CodeHeap.segmentCount t m this = .ok n)
    (hwf : ∀ j, j < n → ∃ c, readChar sc m (b + j) = .ok c ∧ c ≤ (j : Int))
    (hfuel : n ≤ fuel) :
    ∃ l, CodeHeap.findBlobIndices sc t m fuel this pc = .ok l ∧ l ≠ [] ∧
      ∀ x, x ∈ l → x < n := by
  obtain ⟨i, hidx, hilt⟩ :=
    CodeHeap.addrToIndex_lt_count t m this pc lo hi n hin hlo hhi hle hspan hn
  obtain ⟨c, hc, _⟩ := hwf i hilt
  obtain ⟨l, k, hl, _, hall, _, _, _⟩ :=
    CodeHeap.walk_wellformed sc m b n hwf fuel i hilt (by omega)
  unfold CodeHeap.findBlobIndices
  simp only [hin, hb, hidx, hc, hl, Res.ok_bind, Bool.not_true]
  by_cases hff : c = 0xff
  · refine ⟨[i], by simp [hff], by simp, ?_⟩
    intro x hx
    simp only [List.mem_singleton] at hx
    omega
  · refine ⟨i :: l, by simp [hff], by simp, ?_⟩
    intro x hx
    rcases List.mem_cons.mp hx with rfl | hx
    · exact hilt
    · have := hall x hx
      omega

/-- C7 (witness): the amended statement on the heap of four segments with the
segment map `[0, 1, 2, 3]`, at `pc = 0x1090`. -/
theorem C7_indices_in_bounds_wellformed_witness :
    ∃ l, CodeHeap.findBlobIndices true exTable (memBlock 0 200) 4 0x100 0x1090 = .ok l ∧
      l ≠ [] ∧ ∀ x, x ∈ l → x < 4 :=
  C7_indices_in_bounds_wellformed true exTable (memBlock 0 200) 4 0x100 0x1090 0x1000 0x1100
    0x2000 4 (by decide) (by decide) (by decide) (by decide) (by decide) (by decide)
    (by decide)
    (fun j hj => ⟨(j : Int),
      (by decide : ∀ j, j < 4 → readChar true (memBlock 0 200) (0x2000 + j) = .ok (j : Int))
        j hj,
      le_refl _⟩)
    (by decide)

/-- C8 (counterexample): the segment count is 1, and the walk for `pc = 0x1010`
runs from index 0 through the bytes `[0, 1]` mapped below the one-byte segment
map `[1]`: it takes 2 steps, no byte 0 is reached within 1 step, and the
lookup returns the blob `0xF82` instead of not-found. -/
theorem C8_counterexample :
    CodeHeap.segmentCount exTable memOverlong 0x100 = .ok 1 ∧
    VirtualSpace.low exTable memOverlong (CodeHeap.segmap exTable 0x100) = .ok 0x2000 ∧
    CodeHeap.addrToIndex exTable memOverlong 0x100 0x1010 = .ok 0 ∧
    CodeHeap.walkTrace true memOverlong 0x2000 3 0 = .ok [0, 2 ^ 64 - 1, 2 ^ 64 - 2] ∧
    CodeHeap.walkSteps true memOverlong 0x2000 3 0 = .ok 2 ∧
    1 < 2 ∧
    CodeHeap.findBlob true exTable memOverlong 3 0x100 0x1010 = .ok 0xF82 ∧
    CodeCache.findBlob true exTable memOverlong 3 0x1010 = .ok 0xF82 ∧
    CodeCache.findBlob false exTable memOverlong 3 0x1010 = .ok 0xF82 := by
  decide

/-- C8 (amended): for every segment-map content whose `char` at each index `j`
below the total segment count is readable and at most `j`, and every pc that
passes the range test and is not below `memory.low` (the committed range
spanning at most `2 ^ 63` bytes), the backward walk of `CodeHeap::findBlob`
terminates (fuel of at least the segment count is enough, and the lookup does
not run out of it) after at most `addrToIndex(pc)` steps, fewer than the total
segment count, at an index below the count whose `char` is not positive. -/
theorem C8_walk_bounded_wellformed (sc : Bool) (t : VMStructs) (m : Mem)
    (fuel this pc lo hi b n : Nat)
    (hin : VirtualSpace.contains t m (CodeHeap.memory t this) pc = .ok true)
    (hlo : VirtualSpace.low t m (CodeHeap.memory t this) = .ok lo)
    (hhi : VirtualSpace.high t m (CodeHeap.memory t this) = .ok hi)
    (hle : lo ≤ pc) (hspan : hi - lo ≤ 2 ^ 63)
    (hb : VirtualSpace.low t m (CodeHeap.segmap t this) = .ok b)
    (hn : CodeHeap.segmentCount t m this = .ok n)
    (hwf : ∀ j, j < n → ∃ c, readChar sc m (b + j) = .ok c ∧ c ≤ (j : Int))
    (hfuel : n ≤ fuel) :
    ∃ i k s, CodeHeap.addrToIndex t m this pc = .ok i ∧
      CodeHeap.walk sc m b fuel i = .ok k ∧ CodeHeap.walkSteps sc m b fuel i = .ok s ∧
      s ≤ i ∧ s < n ∧ k < n ∧ (∃ c, readChar sc m (b + k) = .ok c ∧ c ≤ 0) ∧
      CodeHeap.findBlob sc t m fuel this pc ≠ .timeout := by
  obtain ⟨i, hidx, hilt⟩ :=
    CodeHeap.addrToIndex_lt_count t m this pc lo hi n hin hlo hhi hle hspan hn
  obtain ⟨c0, hc0, _⟩ := hwf i hilt
  obtain ⟨l, k, hl, hk, _, hlen, hki, hstop⟩ :=
    CodeHeap.walk_wellformed sc m b n hwf fuel i hilt (by omega)
  refine ⟨i, k, l.length - 1, hidx, hk, ?_, by omega, by omega, by omega, hstop,
    CodeHeap.findBlob_ne_timeout_of_walk sc t m fuel this pc b i k c0 hin hb hidx hc0 hk⟩
  unfold CodeHeap.walkSteps
  rw [hl]
  rfl

/-- C8 (witness): the amended statement on the heap of four segments with the
segment map `[0, 1, 2, 3]`, at `pc = 0x10C1`. -/
theorem C8_walk_bounded_wellformed_witness :
    ∃ i k s, CodeHeap.addrToIndex exTable (memBlock 0 200) 0x100 0x10C1 = .ok i ∧
      CodeHeap.walk false (memBlock 0 200) 0x2000 4 i = .ok k ∧
      CodeHeap.walkSteps false (memBlock 0 200) 0x2000 4 i = .ok s ∧
      s ≤ i ∧ s < 4 ∧ k < 4 ∧
      (∃ c, readChar false (memBlock 0 200) (0x2000 + k) = .ok c ∧ c ≤ 0) ∧
      CodeHeap.findBlob false exTable (memBlock 0 200) 4 0x100 0x10C1 ≠ .timeout :=
  C8_walk_bounded_wellformed false exTable (memBlock 0 200) 4 0x100 0x10C1 0x1000 0x1100
    0x2000 4 (by decide) (by decide) (by decide) (by decide) (by decide) (by decide)
    (by decide)
    (fun j hj => ⟨(j : Int),
      (by decide : ∀ j, j < 4 → readChar false (memBlock 0 200) (0x2000 + j) = .ok (j : Int))
        j hj,
      le_refl _⟩)
    (by decide)

/-! ## C10: lookups before the offset table is initialised -/

/-- C10 (counterexample): with the offset table in its initial state and no
memory mapped at address 0, `CodeCache::findBlob` does not return not-found: it
reads `memory()->low_boundary()` through the null heap pointer and faults at
address 0. -/
theorem C10_counterexample :
    CodeCache.findBlob true VMStructs.initial (memOf []) 1 0x1010 = .fault 0 ∧
    CodeCache.findBlob false VMStructs.initial (memOf []) 1 0x1010 = .fault 0 ∧
    CodeCache.findBlob true VMStructs.initial (memOf []) 1 0 = .fault 0 ∧
    CodeCache.findBlob true VMStructs.initial (memOf []) 1 0x1010 ≠ .ok 0 := by
  decide

/-- C10 (amended): `CodeCache::findBlob` does not consult `available()`. With
the offset table in a state where `_vs_low_boundary_offset` and
`_vs_high_offset` coincide (as in the initial state, where all offsets are
equal), it reads the word `memory()->low_boundary()` of the heap pointer for
every pc: when that read faults, the lookup faults; when it succeeds, the
lookup returns not-found. -/
theorem C10_lookup_before_init_reads_memory (sc : Bool) (t : VMStructs) (m : Mem)
    (fuel pc : Nat) (hoff : t._vs_low_boundary_offset = t._vs_high_offset) :
    (∀ a, VirtualSpace.low_boundary t m (CodeHeap.memory t t._code_cache_heap) = .fault a →
      CodeCache.findBlob sc t m fuel pc = .fault a) ∧
    (∀ v, VirtualSpace.low_boundary t m (CodeHeap.memory t t._code_cache_heap) = .ok v →
      CodeCache.findBlob sc t m fuel pc = .ok 0) := by
  have hhigh : VirtualSpace.high t m (CodeHeap.memory t t._code_cache_heap) =
      VirtualSpace.low_boundary t m (CodeHeap.memory t t._code_cache_heap) := by
    unfold VirtualSpace.high VirtualSpace.low_boundary
    rw [hoff]
  constructor
  · intro a ha
    unfold CodeCache.findBlob CodeHeap.findBlob VirtualSpace.contains
    rw [ha]
    simp
  · intro v hv
    apply CodeCache.findBlob_of_null
    apply CodeHeap.findBlob_of_not_contains
    unfold VirtualSpace.contains
    rw [hhigh, hv]
    by_cases hle : v ≤ pc
    · simp [hle]
    · simp [hle]

/-- C10 (witness): the amended statement at the initial offset table, with the
eight bytes at address 0 mapped and with nothing mapped. -/
theorem C10_lookup_before_init_reads_memory_witness :
    VMStructs.initial._vs_low_boundary_offset = VMStructs.initial._vs_high_offset ∧
    CodeCache.findBlob true VMStructs.initial (memOf [(0, bytesLE 5 8)]) 1 0x1010 = .ok 0 :=
  ⟨rfl, (C10_lookup_before_init_reads_memory true VMStructs.initial (memOf [(0, bytesLE 5 8)])
    1 0x1010 rfl).2 5 (by decide)⟩

/-! ## C11: the interpreter's code region -/

/-- C11 (counterexample): with `bufferStart = 0x1000` and the limit `-8192`,
the integer interval `[bufferStart, bufferStart + limit)` is empty, but the end
`code_start + buffer_limit()` wraps to `2 ^ 64 - 4096` and `contains(0x1010)` is
true; with `bufferStart = 2 ^ 64 - 16` and the limit 32, `2 ^ 64 - 8` lies in
the integer interval, but the end wraps to 16 and `contains` is false. -/
theorem C11_counterexample :
    StubQueue.buffer exTableStubs (memStubs 0x1000 (2 ^ 32 - 8192)) 0x300 = .ok 0x1000 ∧
    StubQueue.buffer_limit exTableStubs (memStubs 0x1000 (2 ^ 32 - 8192)) 0x300
      = .ok (-8192) ∧
    Interpreter.contains exTableStubs (memStubs 0x1000 (2 ^ 32 - 8192)) 0x1010 = .ok true ∧
    ¬ ((0x1000 : Int) ≤ 0x1010 ∧ (0x1010 : Int) < 0x1000 + (-8192)) ∧
    StubQueue.buffer exTableStubs (memStubs (2 ^ 64 - 16) 32) 0x300 = .ok (2 ^ 64 - 16) ∧
    StubQueue.buffer_limit exTableStubs (memStubs (2 ^ 64 - 16) 32) 0x300 = .ok 32 ∧
    Interpreter.contains exTableStubs (memStubs (2 ^ 64 - 16) 32) (2 ^ 64 - 8) = .ok false ∧
    ((2 ^ 64 - 16 : Int) ≤ 2 ^ 64 - 8 ∧ (2 ^ 64 - 8 : Int) < (2 ^ 64 - 16) + 32) := by
  decide

/-- C11 (amended): for every 64-bit buffer start address `bufferStart`, every
32-bit signed buffer limit and every pc, `Interpreter::contains(pc)` is true
if and only if `bufferStart <= pc` and `pc` is below the end
`(bufferStart + limit) mod 2 ^ 64`; whenever `0 <= bufferStart + limit < 2 ^ 64`
that is: if and only if pc lies in `[bufferStart, bufferStart + limit)`, the
bounds being taken as integers. -/
theorem C11_interpreter_contains_iff (t : VMStructs) (m : Mem) (pc start : Nat) (limit : Int)
    (hs : StubQueue.buffer t m t._interpreter_code = .ok start)
    (hl : StubQueue.buffer_limit t m t._interpreter_code = .ok limit) :
    (Interpreter.contains t m pc = .ok true ↔ start ≤ pc ∧ pc < ptrAdd start limit) ∧
    (Interpreter.contains t m pc = .ok false ↔ ¬ (start ≤ pc ∧ pc < ptrAdd start limit)) ∧
    ((ptrAdd start limit : Int) = ((start : Int) + limit) % 2 ^ 64) ∧
    (0 ≤ (start : Int) + limit → (start : Int) + limit < 2 ^ 64 →
      (Interpreter.contains t m pc = .ok true ↔
        (start : Int) ≤ pc ∧ (pc : Int) < (start : Int) + limit)) := by
  have hc : Interpreter.contains t m pc
      = .ok (decide (start ≤ pc ∧ pc < ptrAdd start limit)) := by
    unfold Interpreter.contains
    rw [hs, hl]
    rfl
  have hp : (ptrAdd start limit : Int) = ((start : Int) + limit) % 2 ^ 64 := by
    unfold ptrAdd WORD
    omega
  refine ⟨?_, ?_, hp, ?_⟩
  · rw [hc]
    simp
  · rw [hc]
    simp
  · intro h0 h1
    rw [hc]
    simp only [Res.ok.injEq, decide_eq_true_eq]
    omega

/-- C11 (witness): the amended statement at `bufferStart = 0x1000`, limit
`0x200` and `pc = 0x1010`. -/
theorem C11_interpreter_contains_iff_witness :
    (Interpreter.contains exTableStubs (memStubs 0x1000 0x200) 0x1010 = .ok true ↔
      0x1000 ≤ 0x1010 ∧ 0x1010 < ptrAdd 0x1000 0x200) ∧
    (Interpreter.contains exTableStubs (memStubs 0x1000 0x200) 0x1010 = .ok false ↔
      ¬ (0x1000 ≤ 0x1010 ∧ 0x1010 < ptrAdd 0x1000 0x200)) ∧
    ((ptrAdd 0x1000 0x200 : Int) = (((0x1000 : Nat) : Int) + 0x200) % 2 ^ 64) ∧
    (0 ≤ ((0x1000 : Nat) : Int) + 0x200 → ((0x1000 : Nat) : Int) + 0x200 < 2 ^ 64 →
      (Interpreter.contains exTableStubs (memStubs 0x1000 0x200) 0x1010 = .ok true ↔
        ((0x1000 : Nat) : Int) ≤ ((0x1010 : Nat) : Int) ∧
        ((0x1010 : Nat) : Int) < ((0x1000 : Nat) : Int) + 0x200)) :=
  C11_interpreter_contains_iff exTableStubs (memStubs 0x1000 0x200) 0x1010 0x1000 0x200
    (by decide) (by decide)

/-! ## C12: the range test of a virtual space -/

namespace VMS

/-- A byte read depends on the byte at its address only. -/
theorem readByte_congr (m1 m2 : Mem) (a : Nat) (h : m1 (a % WORD) = m2 (a % WORD)) :
    readByte m1 a = readByte m2 a := by
  unfold readByte
  rw [h]

/-- A little-endian read of `n` bytes depends on those `n` bytes only. -/
theorem readLE_congr (m1 m2 : Mem) (n : Nat) :
    ∀ a, agreeAt m1 m2 a n → readLE m1 a n = readLE m2 a n := by
  induction n with
  | zero => intro a _; rfl
  | succ n ih =>
    intro a h
    have h0 : readByte m1 a = readByte m2 a :=
      readByte_congr m1 m2 a (by simpa using h 0 (by omega))
    have h1 : readLE m1 (a + 1) n = readLE m2 (a + 1) n := by
      apply ih
      intro i hi
      have := h (i + 1) (by omega)
      rwa [show a + (i + 1) = a + 1 + i by omega] at this
    unfold readLE
    rw [h0, h1]

end VMS

/-- The range test as a single comparison, when both fields are readable. -/
theorem VirtualSpace.contains_eq_range_test (t : VMStructs) (m : Mem) (this addr lb hi : Nat)
    (hlb : VirtualSpace.low_boundary t m this = .ok lb)
    (hhi : VirtualSpace.high t m this = .ok hi) :
    VirtualSpace.contains t m this addr = .ok (decide (lb ≤ addr ∧ addr < hi)) := by
  unfold VirtualSpace.contains
  rw [hlb, hhi]
  by_cases hle : lb ≤ addr
  · simp [hle]
  · simp [hle]

/-- C12: for every VirtualSpace view (its `_low_boundary` and `_high` fields
readable) and every address, `VirtualSpace::contains(addr)` is true if and only
if `lowBoundary <= addr < high`; the result is the same for every offset table
with the same `_vs_low_boundary_offset` and `_vs_high_offset`, and for every
memory holding the same bytes in these two fields: the fields `_low` and
`_high_boundary` do not influence it. -/
theorem C12_virtualspace_contains_iff (t : VMStructs) (m : Mem) (this addr lb hi : Nat)
    (hlb : VirtualSpace.low_boundary t m this = .ok lb)
    (hhi : VirtualSpace.high t m this = .ok hi) :
    (VirtualSpace.contains t m this addr = .ok true ↔ lb ≤ addr ∧ addr < hi) ∧
    (VirtualSpace.contains t m this addr = .ok false ↔ ¬ (lb ≤ addr ∧ addr < hi)) ∧
    (∀ t2 : VMStructs, t2._vs_low_boundary_offset = t._vs_low_boundary_offset →
      t2._vs_high_offset = t._vs_high_offset →
      VirtualSpace.contains t2 m this addr = VirtualSpace.contains t m this addr) ∧
    (∀ m2 : Mem,
      agreeAt m2 m (VMStructs.at_ this t._vs_low_boundary_offset) 8 →
      agreeAt m2 m (VMStructs.at_ this t._vs_high_offset) 8 →
      VirtualSpace.contains t m2 this addr = VirtualSpace.contains t m this addr) := by
  have hc := VirtualSpace.contains_eq_range_test t m this addr lb hi hlb hhi
  refine ⟨?_, ?_, ?_, ?_⟩
  · rw [hc]
    simp
  · rw [hc]
    simp
  · intro t2 h1 h2
    unfold VirtualSpace.contains VirtualSpace.low_boundary VirtualSpace.high
    rw [h1, h2]
  · intro m2 h1 h2
    unfold VirtualSpace.contains VirtualSpace.low_boundary VirtualSpace.high readPtr
    rw [readLE_congr m2 m 8 _ h1, readLE_congr m2 m 8 _ h2]

/-- C12 (witness): the statement on the code memory of the example heap, whose
reserved low `0x800` lies below its committed low `0x1000`, at `addr = 0x810`. -/
theorem C12_virtualspace_contains_iff_witness :
    VirtualSpace.low exTable memLowGap (CodeHeap.memory exTable 0x100) = .ok 0x1000 ∧
    VirtualSpace.contains exTable memLowGap (CodeHeap.memory exTable 0x100) 0x810 = .ok true ∧
    (VirtualSpace.contains exTable memLowGap (CodeHeap.memory exTable 0x100) 0x810 = .ok true ↔
      0x800 ≤ 0x810 ∧ 0x810 < 0x1100) :=
  ⟨by decide, by decide,
    (C12_virtualspace_contains_iff exTable memLowGap (CodeHeap.memory exTable 0x100) 0x810
      0x800 0x1100 (by decide) (by decide)).1⟩

/-! ## C13: the extent of a blob -/

/-- The containment test of a blob as a single comparison, when the size field
is readable. -/
theorem CodeBlob.contains_eq_extent_test (t : VMStructs) (m : Mem) (this pc : Nat) (sz : Int)
    (hthis : this < WORD) (hsz : CodeBlob.size t m this = .ok sz) :
    CodeBlob.contains t m this pc = .ok (decide (this ≤ pc ∧ pc < VMStructs.at_ this sz)) := by
  unfold CodeBlob.contains
  rw [VMStructs.at_, ptrAdd_zero this hthis, hsz]
  by_cases hle : this ≤ pc
  · simp [hle, VMStructs.at_]
  · simp [hle]

/-- C13 (counterexample): the blob at `0x1002` stores the size `-65536`, so the
integer interval `[blobAddr, blobAddr + size())` is empty; the end pointer
`at(size())` wraps to `2 ^ 64 - 61438`, `contains(0x1020)` is true and
`CodeCache::findBlob` returns the blob. -/
theorem C13_counterexample :
    CodeBlob.size exTable (memBlock 0 (2 ^ 32 - 65536)) 0x1002 = .ok (-65536) ∧
    VMStructs.at_ 0x1002 (-65536) = 2 ^ 64 - 61438 ∧
    CodeBlob.contains exTable (memBlock 0 (2 ^ 32 - 65536)) 0x1002 0x1020 = .ok true ∧
    ¬ ((0x1002 : Int) ≤ 0x1020 ∧ (0x1020 : Int) < 0x1002 + (-65536)) ∧
    CodeCache.findBlob true exTable (memBlock 0 (2 ^ 32 - 65536)) 1 0x1020 = .ok 0x1002 := by
  decide

/-- C13 (amended): for every 64-bit blob address `blobAddr`, every stored
32-bit size field and every pc, `CodeBlob::contains(pc)` is true if and only if
`blobAddr <= pc` and `pc` is below the end pointer `at(size())`, which is
`(blobAddr + size()) mod 2 ^ 64`; whenever `0 <= blobAddr + size() < 2 ^ 64`
that is: if and only if `blobAddr <= pc < blobAddr + size()`. In particular a
blob whose size field is zero, or negative with `blobAddr + size() >= 0`,
contains no pc, and `CodeCache::findBlob` returns not-found for it. -/
theorem C13_codeblob_contains_iff (t : VMStructs) (m : Mem) (this pc : Nat) (sz : Int)
    (hthis : this < WORD) (hsz : CodeBlob.size t m this = .ok sz) :
    (CodeBlob.contains t m this pc = .ok true ↔ this ≤ pc ∧ pc < VMStructs.at_ this sz) ∧
    ((VMStructs.at_ this sz : Int) = ((this : Int) + sz) % 2 ^ 64) ∧
    (0 ≤ (this : Int) + sz → (this : Int) + sz < 2 ^ 64 →
      (CodeBlob.contains t m this pc = .ok true ↔
        (this : Int) ≤ pc ∧ (pc : Int) < (this : Int) + sz)) ∧
    (sz ≤ 0 → 0 ≤ (this : Int) + sz →
      CodeBlob.contains t m this pc = .ok false ∧
      ∀ (sc : Bool) (fuel : Nat),
        CodeHeap.findBlob sc t m fuel t._code_cache_heap pc = .ok this →
        CodeCache.findBlob sc t m fuel pc = .ok 0) := by
  have hc := CodeBlob.contains_eq_extent_test t m this pc sz hthis hsz
  have hp : (VMStructs.at_ this sz : Int) = ((this : Int) + sz) % 2 ^ 64 := by
    unfold VMStructs.at_ ptrAdd WORD
    omega
  refine ⟨?_, hp, ?_, ?_⟩
  · rw [hc]
    simp
  · intro h0 h1
    rw [hc]
    simp only [Res.ok.injEq, decide_eq_true_eq]
    omega
  · intro hneg h0
    have hfalse : CodeBlob.contains t m this pc = .ok false := by
      rw [hc]
      simp only [Res.ok.injEq, decide_eq_false_iff_not]
      unfold WORD at hthis
      omega
    refine ⟨hfalse, fun sc fuel hheap => ?_⟩
    unfold CodeCache.findBlob
    rw [hheap]
    by_cases h0 : this = 0
    · simp [h0]
    · simp [h0, hfalse]

/-- C13 (witness): the amended statement at the blob at `0x1002` of the example
heap, with the size field 200 and `pc = 0x1090`. -/
theorem C13_codeblob_contains_iff_witness :
    CodeBlob.size exTable (memBlock 0 200) 0x1002 = .ok 200 ∧
    (CodeBlob.contains exTable (memBlock 0 200) 0x1002 0x1090 = .ok true ↔
      0x1002 ≤ 0x1090 ∧ 0x1090 < VMStructs.at_ 0x1002 200) :=
  ⟨by decide,
    (C13_codeblob_contains_iff exTable (memBlock 0 200) 0x1002 0x1090 200
      (by decide) (by decide)).1⟩

/-! ## C14: the structure-view accessors -/

namespace VMS

/-- Reading back the little-endian encoding of `v`. -/
theorem readLE_of_holds (m : Mem) (n : Nat) :
    ∀ a v, holdsLE m a v n → readLE m a n = .ok (v % 256 ^ n) := by
  induction n with
  | zero =>
    intro a v _
    simp [readLE, Nat.mod_one]
  | succ n ih =>
    intro a v h
    have hb : readByte m a = .ok (v % 256) := by
      have h0 := h 0 (by omega)
      simp only [Nat.add_zero, pow_zero, Nat.div_one] at h0
      unfold readByte
      rw [h0]
      simp
    have ht : readLE m (a + 1) n = .ok (v / 256 % 256 ^ n) := by
      apply ih
      intro i hi
      have hi1 := h (i + 1) (by omega)
      rw [show a + (i + 1) = a + 1 + i by omega, pow_succ, Nat.mul_comm,
        ← Nat.div_div_eq_div_mul] at hi1
      exact hi1
    unfold readLE
    rw [hb, ht]
    simp only [Res.ok_bind, Res.pure_eq, Res.ok.injEq]
    rw [pow_succ', Nat.mod_mul]

/-- The three read primitives return the value stored at the address read, and
depend on nothing else. -/
theorem readsField_primitives (addr : Nat) :
    ReadsField 2 (fun m => readU16 m addr) addr ∧
    ReadsField 8 (fun m => readPtr m addr) addr ∧
    ReadsIntField (fun m => readInt m addr) addr := by
  refine ⟨⟨?_, ?_⟩, ⟨?_, ?_⟩, ⟨?_, ?_⟩⟩
  · intro m v hv h
    show readLE m addr 2 = .ok v
    rw [readLE_of_holds m 2 addr v h, Nat.mod_eq_of_lt hv]
  · intro m1 m2 h
    exact readLE_congr m1 m2 2 addr h
  · intro m v hv h
    show readLE m addr 8 = .ok v
    rw [readLE_of_holds m 8 addr v h, Nat.mod_eq_of_lt hv]
  · intro m1 m2 h
    exact readLE_congr m1 m2 8 addr h
  · intro m z h0 h1 h
    show readInt m addr = .ok z
    unfold readInt
    rw [readLE_of_holds m 4 addr _ h]
    simp only [Res.ok_bind, Res.pure_eq, Res.ok.injEq]
    unfold toSigned encodeInt
    split <;> omega
  · intro m1 m2 h
    show readInt m1 addr = readInt m2 addr
    unfold readInt
    rw [readLE_congr m1 m2 4 addr h]

end VMS

/-- C14: for every memory image, base address and offset table, each
structure-view accessor returns exactly the value stored at `base` plus its
table offset and nothing else: `Symbol.length` the 16-bit value, the three
frame-anchor accessors the word, `CodeBlob.size` and `frameSize` the 32-bit
value, the four `VirtualSpace` accessors the pointer (and likewise
`Klass.name`, `Class.klass`, `CodeBlob.name` and the two `StubQueue`
accessors); the structural views `Symbol.body`, `CallWrapper.anchor`,
`CodeHeap.memory` and `CodeHeap.segmap` are the address `base + offset`
(modulo `2 ^ 64`), computed without any memory. -/
theorem C14_accessors_read_their_field (t : VMStructs) (base : Nat) :
    ReadsField 2 (fun m => VMSymbol.length t m base)
      (VMStructs.at_ base t._symbol_length_offset) ∧
    ReadsField 8 (fun m => JavaFrameAnchor.lastJavaSP t m base)
      (VMStructs.at_ base t._anchor_sp_offset) ∧
    ReadsField 8 (fun m => JavaFrameAnchor.lastJavaPC t m base)
      (VMStructs.at_ base t._anchor_pc_offset) ∧
    ReadsField 8 (fun m => JavaFrameAnchor.lastJavaFP t m base)
      (VMStructs.at_ base t._anchor_fp_offset) ∧
    ReadsIntField (fun m => CodeBlob.size t m base) (VMStructs.at_ base t._cb_size_offset) ∧
    ReadsIntField (fun m => CodeBlob.frameSize t m base)
      (VMStructs.at_ base t._cb_frame_size_offset) ∧
    ReadsField 8 (fun m => VirtualSpace.low t m base) (VMStructs.at_ base t._vs_low_offset) ∧
    ReadsField 8 (fun m => VirtualSpace.high t m base) (VMStructs.at_ base t._vs_high_offset) ∧
    ReadsField 8 (fun m => VirtualSpace.low_boundary t m base)
      (VMStructs.at_ base t._vs_low_boundary_offset) ∧
    ReadsField 8 (fun m => VirtualSpace.high_boundary t m base)
      (VMStructs.at_ base t._vs_high_boundary_offset) ∧
    ReadsField 8 (fun m => VMKlass.name t m base) (VMStructs.at_ base t._klass_name_offset) ∧
    ReadsField 8 (fun m => java_lang_Class.klass t m base)
      (VMStructs.at_ base t._class_klass_offset) ∧
    ReadsField 8 (fun m => CodeBlob.name t m base) (VMStructs.at_ base t._cb_name_offset) ∧
    ReadsField 8 (fun m => StubQueue.buffer t m base)
      (VMStructs.at_ base t._stub_buffer_offset) ∧
    ReadsIntField (fun m => StubQueue.buffer_limit t m base)
      (VMStructs.at_ base t._stub_buffer_limit_offset) ∧
    VMSymbol.body t base = VMStructs.at_ base t._symbol_body_offset ∧
    JavaCallWrapper.anchor t base = VMStructs.at_ base t._wrapper_anchor_offset ∧
    CodeHeap.memory t base = VMStructs.at_ base t._heap_memory_offset ∧
    CodeHeap.segmap t base = VMStructs.at_ base t._heap_segmap_offset ∧
    ∀ offset : Int, (VMStructs.at_ base offset : Int) = ((base : Int) + offset) % 2 ^ 64 := by
  refine ⟨(readsField_primitives _).1, (readsField_primitives _).2.1,
    (readsField_primitives _).2.1, (readsField_primitives _).2.1,
    (readsField_primitives _).2.2, (readsField_primitives _).2.2,
    (readsField_primitives _).2.1, (readsField_primitives _).2.1,
    (readsField_primitives _).2.1, (readsField_primitives _).2.1,
    (readsField_primitives _).2.1, (readsField_primitives _).2.1,
    (readsField_primitives _).2.1, (readsField_primitives _).2.1,
    (readsField_primitives _).2.2, rfl, rfl, rfl, rfl, ?_⟩
  intro offset
  unfold VMStructs.at_ ptrAdd WORD
  omega

/-- The accessors of C14 on a concrete image: the symbol at `0x400` has the
length 5 placed there, the anchor at `0x500` the pc `0x1090` placed at `+8`,
the blob at `0x1002` the size 200, and the body of the symbol is at `0x402`. -/
theorem VMS.accessors_on_example :
    holdsLE memViews (VMStructs.at_ 0x400 exTable._symbol_length_offset) 5 2 ∧
    VMSymbol.length exTable memViews 0x400 = .ok 5 ∧
    holdsLE memViews (VMStructs.at_ 0x500 exTable._anchor_pc_offset) 0x1090 8 ∧
    JavaFrameAnchor.lastJavaPC exTable memViews 0x500 = .ok 0x1090 ∧
    holdsLE (memBlock 0 200) (VMStructs.at_ 0x1002 exTable._cb_size_offset) (encodeInt 200) 4 ∧
    CodeBlob.size exTable (memBlock 0 200) 0x1002 = .ok 200 ∧
    VMSymbol.body exTable 0x400 = 0x402 := by
  decide

/-- C14 (witness): the statement at the symbol of the example image, whose
length field holds 5. -/
theorem C14_accessors_read_their_field_witness :
    VMSymbol.length exTable memViews 0x400 = .ok 5 :=
  (C14_accessors_read_their_field exTable 0x400).1.1 memViews 5 (by decide) (by decide)

/-! ## C15: one step of the backward walk -/

/-- One turn of the loop at an index whose byte is `d`, where `char` is
unsigned or `d < 128`: for `d > 0` the walk goes on from `i - d` (modulo
`2 ^ 64`), for `d = 0` it stops and returns `i`. -/
theorem CodeHeap.walk_step (sc : Bool) (m : Mem) (b fuel i d : Nat)
    (hd : readByte m (b + i) = .ok d) (hsc : sc = true → d < 128) :
    (0 < d → CodeHeap.walk sc m b (fuel + 1) i = CodeHeap.walk sc m b fuel (sizeSub i d) ∧
      (d ≤ i → i < WORD → sizeSub i d = i - d)) ∧
    (d = 0 → CodeHeap.walk sc m b (fuel + 1) i = .ok i) := by
  have hc := readChar_of_byte sc m (b + i) d hd hsc
  constructor
  · intro hpos
    constructor
    · rw [CodeHeap.walk, hc]
      have : (d : Int) > 0 := by omega
      simp [this]
    · intro hle hi
      rw [sizeSub_of_le i d (by omega) (by omega) hi]
      simp
  · intro h0
    subst h0
    rw [CodeHeap.walk, hc]
    simp

/-- Where `char` is signed, a byte `d >= 128` stops the loop at once, whatever
distance it encodes. -/
theorem CodeHeap.walk_stops_signed (m : Mem) (b fuel i d : Nat)
    (hd : readByte m (b + i) = .ok d) (h128 : 128 ≤ d) :
    CodeHeap.walk true m b (fuel + 1) i = .ok i := by
  have hlt : d < 256 := by
    unfold readByte at hd
    split at hd
    · simp only [Res.ok.injEq] at hd
      omega
    · simp at hd
  have hc : readChar true m (b + i) = .ok ((d : Int) - 256) := by
    unfold readChar
    rw [hd]
    simp only [Res.ok_bind, if_true, Res.pure_eq, Res.ok.injEq]
    unfold toSigned
    split <;> omega
  rw [CodeHeap.walk, hc]
  have : ¬ ((d : Int) - 256 > 0) := by omega
  simp [this]

/-- C15 (the code at the failing input): where `char` is signed, the byte at
index 129 of the segment map is 129, a value in `1..0xFE`, and the walk at
index 129 does not move to index `129 - 129 = 0`: it stops and takes 129 as the
block-start index. Where `char` is unsigned it moves to index 0. -/
theorem C15_walk_step_missed_signed_char :
    readByte memLongRun (0x2000 + 129) = .ok 129 ∧
    CodeHeap.walkTrace true memLongRun 0x2000 2 129 = .ok [129] ∧
    CodeHeap.walk true memLongRun 0x2000 2 129 = .ok 129 ∧
    CodeHeap.walkTrace false memLongRun 0x2000 2 129 = .ok [129, 0] ∧
    CodeHeap.walk false memLongRun 0x2000 2 129 = .ok 0 := by
  set_option maxRecDepth 8000 in decide

/-! ## C16, C18: what a returned blob is -/

/-- A non-null result of `CodeHeap::findBlob`: the range test passed, the loop
ended at some index `k`, the `_used` byte of the block at `indexToAddr(k)` is
clear, and the result is that block address plus `2 * sizeof(CodeBlob)`. -/
theorem CodeHeap.findBlob_nonnull_inv (sc : Bool) (t : VMStructs) (m : Mem)
    (fuel this pc cb : Nat)
    (h : CodeHeap.findBlob sc t m fuel this pc = .ok cb) (hcb : cb ≠ 0) :
    VirtualSpace.contains t m (CodeHeap.memory t this) pc = .ok true ∧
    ∃ b i k block, VirtualSpace.low t m (CodeHeap.segmap t this) = .ok b ∧
      CodeHeap.addrToIndex t m this pc = .ok i ∧
      CodeHeap.walk sc m b fuel i = .ok k ∧
      CodeHeap.indexToAddr t m this k = .ok block ∧
      readBool m (ptrAdd block t._heap_block_used_offset) = .ok false ∧
      cb = (block + 2 * CodeBlob.sizeof) % WORD := by
  unfold CodeHeap.findBlob at h
  simp only [Res.bind_eq_ok] at h
  obtain ⟨inside, hin, h⟩ := h
  cases inside with
  | false =>
    simp only [Bool.not_false, if_true, Res.pure_eq, Res.ok.injEq] at h
    exact absurd h.symm hcb
  | true =>
    simp only [Bool.not_true, Bool.false_eq_true, if_false, Res.bind_eq_ok] at h
    obtain ⟨b, hb, i, hi, c, _, h⟩ := h
    split at h
    · simp only [Res.pure_eq, Res.ok.injEq] at h
      exact absurd h.symm hcb
    · simp only [Res.bind_eq_ok] at h
      obtain ⟨k, hk, block, hblock, used, hused, h⟩ := h
      cases used with
      | true =>
        simp only [if_true, Res.pure_eq, Res.ok.injEq] at h
        exact absurd h.symm hcb
      | false =>
        simp only [Bool.false_eq_true, if_false, Res.pure_eq, Res.ok.injEq] at h
        exact ⟨hin, b, i, k, block, hb, hi, hk, hblock, hused, h.symm⟩

/-- C16 (the code at the failing input): with the `_used` flag at offset 8 of
the block header, the lookup of `pc = 0x1090` ends at the block `0x1000` and
returns `0x1002`, the block address plus the fixed `2 * sizeof(CodeBlob) = 2`;
the flag, at `0x1008`, does not lie below the returned blob address. -/
theorem C16_blob_address_inside_header :
    CodeHeap.walk true (memBlock 0 200) 0x2000 2 2 = .ok 0 ∧
    CodeHeap.indexToAddr exTable (memBlock 0 200) 0x100 0 = .ok 0x1000 ∧
    CodeHeap.findBlob true exTable (memBlock 0 200) 2 0x100 0x1090 = .ok 0x1002 ∧
    0x1002 = 0x1000 + 2 * CodeBlob.sizeof ∧
    ptrAdd 0x1000 exTable._heap_block_used_offset = 0x1008 ∧
    ¬ (ptrAdd 0x1000 exTable._heap_block_used_offset < 0x1002) := by
  decide

/-- C18: whenever `CodeCache::findBlob(pc)` returns a blob, the blob is exactly
the one `CodeHeap::findBlob(pc)` returns for the code-cache heap, and pc
satisfies `memory.contains(pc)`, that is `low_boundary <= pc < high`. -/
theorem C18_result_is_heap_result_in_range (sc : Bool) (t : VMStructs) (m : Mem)
    (fuel pc cb : Nat)
    (h : CodeCache.findBlob sc t m fuel pc = .ok cb) (hcb : cb ≠ 0) :
    CodeHeap.findBlob sc t m fuel t._code_cache_heap pc = .ok cb ∧
    VirtualSpace.contains t m (CodeHeap.memory t t._code_cache_heap) pc = .ok true ∧
    ∃ lb hi, VirtualSpace.low_boundary t m (CodeHeap.memory t t._code_cache_heap) = .ok lb ∧
      VirtualSpace.high t m (CodeHeap.memory t t._code_cache_heap) = .ok hi ∧
      lb ≤ pc ∧ pc < hi := by
  have hheap := (CodeCache.findBlob_ok_nonnull sc t m fuel pc cb h hcb).1
  have hin := (CodeHeap.findBlob_nonnull_inv sc t m fuel _ pc cb hheap hcb).1
  exact ⟨hheap, hin, VirtualSpace.contains_true_range t m _ pc hin⟩

/-- C18 (witness): the statement at the blob `0x1002` returned for
`pc = 0x1090` on the example heap. -/
theorem C18_result_is_heap_result_in_range_witness :
    CodeCache.findBlob false exTable (memBlock 0 200) 2 0x1090 = .ok 0x1002 ∧
    CodeHeap.findBlob false exTable (memBlock 0 200) 2 exTable._code_cache_heap 0x1090
      = .ok 0x1002 ∧
    VirtualSpace.contains exTable (memBlock 0 200)
      (CodeHeap.memory exTable exTable._code_cache_heap) 0x1090 = .ok true ∧
    ∃ lb hi,
      VirtualSpace.low_boundary exTable (memBlock 0 200)
        (CodeHeap.memory exTable exTable._code_cache_heap) = .ok lb ∧
      VirtualSpace.high exTable (memBlock 0 200)
        (CodeHeap.memory exTable exTable._code_cache_heap) = .ok hi ∧
      lb ≤ 0x1090 ∧ 0x1090 < hi :=
  ⟨by decide,
    C18_result_is_heap_result_in_range false exTable (memBlock 0 200) 2 0x1090 0x1002
      (by decide) (by decide)⟩

/-! ## C17: segment index and segment address -/

namespace VMS

/-- The shift count is below 64. -/
theorem shiftCount_lt (k : Int) : shiftCount k < 64 := by
  unfold shiftCount
  omega

/-- A shift count in `0..63` is used as it is. -/
theorem shiftCount_of_range (k : Int) (h0 : 0 ≤ k) (h1 : k ≤ 63) : shiftCount k = k.toNat := by
  unfold shiftCount
  omega

/-- The segment size divides `2 ^ 64`. -/
theorem segment_size_mul (s : Nat) (hs : s < 64) : 2 ^ s * 2 ^ (64 - s) = 2 ^ 64 := by
  rw [← pow_add]
  congr 1
  omega

/-- The signed reading of a pointer difference. -/
theorem toSigned_diff (pc lo : Nat) (hle : lo ≤ pc) (hpc : pc < WORD) :
    toSigned 64 (pc + WORD - lo % WORD) =
      if pc - lo < 2 ^ 63 then ((pc - lo : Nat) : Int) else ((pc - lo : Nat) : Int) - 2 ^ 64 := by
  unfold toSigned
  unfold WORD at *
  split <;> split <;> omega

end VMS

/-- The segment address of the segment index of a pc at or above `memory.low`
is pc rounded down by its offset in the segment, also where the pointer
difference reads as negative. -/
theorem CodeHeap.indexToAddr_addrToIndex (t : VMStructs) (m : Mem) (this pc lo : Nat) (k : Int)
    (hlo : VirtualSpace.low t m (CodeHeap.memory t this) = .ok lo)
    (hk : CodeHeap.log2SegmentSize t m this = .ok k)
    (hle : lo ≤ pc) (hpc : pc < WORD) :
    ∃ i, CodeHeap.addrToIndex t m this pc = .ok i ∧
      CodeHeap.indexToAddr t m this i = .ok (pc - (pc - lo) % 2 ^ shiftCount k) := by
  have hs := shiftCount_lt k
  have hPQ := segment_size_mul (shiftCount k) hs
  have hP : 0 < 2 ^ shiftCount k := Nat.two_pow_pos _
  unfold CodeHeap.addrToIndex CodeHeap.indexToAddr
  rw [hlo, hk]
  simp only [Res.ok_bind, Res.pure_eq, Res.ok.injEq, exists_eq_left']
  generalize 2 ^ shiftCount k = P at hPQ hP ⊢
  generalize 2 ^ (64 - shiftCount k) = Q at hPQ
  have hD := Nat.div_add_mod (pc - lo) P
  have hr : (pc - lo) % P < P := Nat.mod_lt _ hP
  have hq : (pc - lo) / P < Q := by
    apply Nat.div_lt_of_lt_mul
    rw [hPQ]
    unfold WORD at hpc
    omega
  have hQ : Q ≤ 2 ^ 64 := by
    rw [← hPQ]
    exact Nat.le_mul_of_pos_left Q hP
  have hsg := toSigned_diff pc lo hle hpc
  rw [hsg]
  generalize (pc - lo) % P = r at hD hr ⊢
  generalize hqd : (pc - lo) / P = q at hD hq
  have hX : q * P + r = pc - lo := by rw [Nat.mul_comm]; exact hD
  by_cases hsmall : pc - lo < 2 ^ 63
  · rw [if_pos hsmall, ← Int.natCast_div, hqd]
    have hidx : (((q : Int)) % ((WORD : Nat) : Int)).toNat = q := by
      have : q ≤ pc - lo := by
        rw [← hqd]
        exact Nat.div_le_self _ _
      unfold WORD
      omega
    rw [hidx]
    generalize q * P = X at hX
    unfold WORD at *
    omega
  · rw [if_neg hsmall]
    have hdiv : (((pc - lo : Nat) : Int) - 2 ^ 64) / ((P : Nat) : Int) = (q : Int) - (Q : Int) := by
      have h1 : ((pc - lo : Nat) : Int) - 2 ^ 64
          = ((pc - lo : Nat) : Int) + ((P : Nat) : Int) * (-(Q : Int)) := by
        have : ((P : Nat) : Int) * (Q : Int) = 2 ^ 64 := by exact_mod_cast hPQ
        rw [mul_neg, this]
        ring
      rw [h1, Int.add_mul_ediv_left _ _ (by omega : ((P : Nat) : Int) ≠ 0),
        ← Int.natCast_div, hqd]
      ring
    rw [hdiv]
    obtain ⟨idx, hidx⟩ :
        ∃ idx, idx = (((q : Int) - (Q : Int)) % ((WORD : Nat) : Int)).toNat := ⟨_, rfl⟩
    rw [← hidx]
    have hsum : idx + Q = 2 ^ 64 + q := by
      unfold WORD at hidx
      omega
    have hZ : idx * P + 2 ^ 64 = 2 ^ 64 * P + q * P := by
      have h2 : (idx + Q) * P = (2 ^ 64 + q) * P := by rw [hsum]
      rw [Nat.add_mul, Nat.add_mul, Nat.mul_comm Q P, hPQ] at h2
      exact h2
    generalize q * P = X at hX hZ
    generalize idx * P = Z at hZ ⊢
    unfold WORD at *
    omega

/-- The segment index of the address of segment `i` is `i`, when the byte
distance `i << log2SegmentSize` is a non-negative pointer difference. -/
theorem CodeHeap.addrToIndex_indexToAddr (t : VMStructs) (m : Mem) (this i lo : Nat) (k : Int)
    (hlo : VirtualSpace.low t m (CodeHeap.memory t this) = .ok lo)
    (hk : CodeHeap.log2SegmentSize t m this = .ok k)
    (hi : i * 2 ^ shiftCount k < 2 ^ 63) :
    ∃ a, CodeHeap.indexToAddr t m this i = .ok a ∧ CodeHeap.addrToIndex t m this a = .ok i := by
  have hlow : lo < WORD := readPtr_lt m _ lo hlo
  have hP : 0 < 2 ^ shiftCount k := Nat.two_pow_pos _
  unfold CodeHeap.addrToIndex CodeHeap.indexToAddr
  rw [hlo, hk]
  simp only [Res.ok_bind, Res.pure_eq, Res.ok.injEq, exists_eq_left']
  generalize 2 ^ shiftCount k = P at hP hi ⊢
  have hdivi : i * P / P = i := Nat.mul_div_cancel i hP
  have hile : i ≤ i * P := Nat.le_mul_of_pos_right i hP
  generalize i * P = X at hi hdivi hile ⊢
  have hsg : toSigned 64 ((lo + X % WORD) % WORD + WORD - lo % WORD) = (X : Int) := by
    unfold toSigned
    unfold WORD at *
    split <;> omega
  rw [hsg, ← Int.natCast_div, hdivi]
  unfold WORD
  omega

/-- C17 (counterexample): with `memory.low = 0x1000` and `log2SegmentSize = 6`,
the pc `0x1000 + 2 ^ 63` is above `memory.low`, yet its pointer difference is
negative as a `ptrdiff_t` and `addrToIndex` gives `2 ^ 64 - 2 ^ 57`, not
`(pc - low) >> 6 = 2 ^ 57`; and the index `2 ^ 57`, whose shift `2 ^ 63` does
not overflow, is not recovered from its address. -/
theorem C17_counterexample :
    VirtualSpace.low exTable (memBlock 0 200) (CodeHeap.memory exTable 0x100) = .ok 0x1000 ∧
    CodeHeap.log2SegmentSize exTable (memBlock 0 200) 0x100 = .ok 6 ∧
    CodeHeap.addrToIndex exTable (memBlock 0 200) 0x100 (0x1000 + 2 ^ 63)
      = .ok (2 ^ 64 - 2 ^ 57) ∧
    (0x1000 + 2 ^ 63 - 0x1000) >>> 6 = 2 ^ 57 ∧
    2 ^ 57 <<< 6 < 2 ^ 64 ∧
    CodeHeap.indexToAddr exTable (memBlock 0 200) 0x100 (2 ^ 57) = .ok (0x1000 + 2 ^ 63) ∧
    CodeHeap.addrToIndex exTable (memBlock 0 200) 0x100 (0x1000 + 2 ^ 63) ≠ .ok (2 ^ 57) := by
  decide

/-- C17 (amended): for every `memory.low`, every `log2SegmentSize` in
`[0, 63]` and every 64-bit `pc >= memory.low`: `addrToIndex(pc)` is
`(pc - memory.low) >> log2SegmentSize` provided `pc - memory.low < 2 ^ 63` (the
difference is a signed `ptrdiff_t`); in every case
`indexToAddr(addrToIndex(pc)) <= pc < indexToAddr(addrToIndex(pc)) +
2 ^ log2SegmentSize`; and for every index `i` with
`i << log2SegmentSize < 2 ^ 63`, `addrToIndex(indexToAddr(i)) = i`. -/
theorem C17_index_address_round_trip (t : VMStructs) (m : Mem) (this lo : Nat) (k : Int)
    (hlo : VirtualSpace.low t m (CodeHeap.memory t this) = .ok lo)
    (hk : CodeHeap.log2SegmentSize t m this = .ok k)
    (hk0 : 0 ≤ k) (hk63 : k ≤ 63) :
    (∀ pc, lo ≤ pc → pc - lo < 2 ^ 63 →
      CodeHeap.addrToIndex t m this pc = .ok ((pc - lo) >>> k.toNat)) ∧
    (∀ pc, lo ≤ pc → pc < 2 ^ 64 →
      ∃ i a, CodeHeap.addrToIndex t m this pc = .ok i ∧
        CodeHeap.indexToAddr t m this i = .ok a ∧ a ≤ pc ∧ pc < a + 2 ^ k.toNat) ∧
    (∀ i, i <<< k.toNat < 2 ^ 63 →
      ∃ a, CodeHeap.indexToAddr t m this i = .ok a ∧
        CodeHeap.addrToIndex t m this a = .ok i) := by
  have hs := shiftCount_of_range k hk0 hk63
  refine ⟨?_, ?_, ?_⟩
  · intro pc hle hlt
    rw [CodeHeap.addrToIndex_of_ge t m this pc lo k hlo hk hle hlt, hs,
      Nat.shiftRight_eq_div_pow]
  · intro pc hle hpc
    obtain ⟨i, hi, ha⟩ :=
      CodeHeap.indexToAddr_addrToIndex t m this pc lo k hlo hk hle (by unfold WORD; omega)
    rw [hs] at ha
    refine ⟨i, _, hi, ha, Nat.sub_le _ _, ?_⟩
    have hr : (pc - lo) % 2 ^ k.toNat < 2 ^ k.toNat := Nat.mod_lt _ (Nat.two_pow_pos _)
    have hrle : (pc - lo) % 2 ^ k.toNat ≤ pc - lo := Nat.mod_le _ _
    omega
  · intro i hi
    rw [Nat.shiftLeft_eq, ← hs] at hi
    exact CodeHeap.addrToIndex_indexToAddr t m this i lo k hlo hk hi

/-- C17 (witness): the amended statement on the example heap, whose
`memory.low` is `0x1000` and whose `log2SegmentSize` is 6, at `pc = 0x1090`. -/
theorem C17_index_address_round_trip_witness :
    CodeHeap.addrToIndex exTable (memBlock 0 200) 0x100 0x1090
      = .ok ((0x1090 - 0x1000) >>> (6 : Int).toNat) :=
  (C17_index_address_round_trip exTable (memBlock 0 200) 0x100 0x1000 6
    (by decide) (by decide) (by decide) (by decide)).1 0x1090 (by decide) (by decide)
